import Mathlib

/-!
# Verification of the ScraperBit extraction/consolidation pipeline

Shallow embedding of the core pure logic of the repository:

* `base_scraper.py` — `clean_price`, `calculate_growth_percent`,
  `is_target_growth_range`, the confidence accumulation of
  `extract_stock_details`;
* `scrapers.py` — `clean_price` (identical copy), `validate_trade_logic`,
  the per-card emission guards of `scrape_axis_ideas` / `scrape_icici_ideas`;
* `scrapers/moneycontrol.py` — the confidence ladders and emission guard of
  `scrape_moneycontrol`, and its final per-page deduplication loop;
* `anti_blocking.py` — the retry loop of
  `AntiBlockingManager.fetch_with_anti_blocking`;
* `data_processing.py` — `deduplicate_stock_tips` and
  `consolidate_findings`.

Modelling conventions: Python floats are modelled as exact rationals (`ℚ`),
Python strings as `List Char`, fallible operations as `Option`, and values
that Python treats by truthiness (`if x:`) through explicit truthiness
helpers (`None` and `0.0` and `""` are falsy).  Randomized sleeps are
recorded symbolically as `(factor, lo, hi)` triples meaning
`factor * uniform(lo, hi)` seconds.
-/

namespace ScraperBit

/-- Python truthiness of an optional float (`if x:`): falsy iff missing or
zero — models e.g. `if not entry_price` in `calculate_growth_percent`. -/
def truthyQ : Option ℚ → Bool
  | none => false
  | some q => q != 0

/-- Python truthiness of an optional string (`if symbol:`): falsy iff
missing or empty. -/
def truthyS : Option (List Char) → Bool
  | none => false
  | some s => !s.isEmpty

/-- `base_scraper.calculate_growth_percent` (lines 59–63):
`if not entry_price or not target_price or entry_price <= 0: return None`
then `((target_price - entry_price) / entry_price) * 100` (no rounding). -/
def calculate_growth_percent (entry_price target_price : Option ℚ) : Option ℚ :=
  if !truthyQ entry_price || !truthyQ target_price || entry_price.getD 0 ≤ 0 then
    none
  else
    some ((target_price.getD 0 - entry_price.getD 0) / entry_price.getD 0 * 100)

/-- `base_scraper.is_target_growth_range` (lines 65–69): `None` is out of
range, otherwise `min_growth <= g <= max_growth` with defaults 7 and 15. -/
def is_target_growth_range (growth_percent : Option ℚ) : Bool :=
  match growth_percent with
  | none => false
  | some g => decide (7 ≤ g ∧ g ≤ 15)

/-- Python `round(x, 2)` on an exact value: banker's rounding of `x * 100`
to an integer, divided by 100 (round-half-to-even). -/
def round2 (q : ℚ) : ℚ :=
  let s := q * 100
  let f : ℤ := ⌊s⌋
  let frac := s - f
  let r : ℤ :=
    if frac < 1/2 then f
    else if frac > 1/2 then f + 1
    else if f % 2 = 0 then f else f + 1
  (r : ℚ) / 100

/-- `scrapers.validate_trade_logic` (lines 101–128): `True` when target or
stop-loss is missing; `False` when `target <= stop_loss`; the entry checks
only log and the function returns `True` otherwise. -/
def validate_trade_logic (entry target stop_loss : Option ℚ) : Bool :=
  match target, stop_loss with
  | some t, some s => !(decide (t ≤ s))
  | _, _ =>
    -- `if target is None or stop_loss is None: return True`
    let _ := entry
    true

/-- The canonical lead record (the dict fields that the deduplication and
validation logic reads: `symbol`, `company_name`, `entry_price`,
`target_price`, `stop_loss`, `confidence`). -/
structure Tip where
  symbol : Option (List Char)
  company_name : Option (List Char)
  entry_price : Option ℚ
  target_price : Option ℚ
  stop_loss : Option ℚ
  confidence : ℚ
deriving DecidableEq, Repr, Inhabited

/-- Emission guard of `scrape_axis_ideas` (`scrapers.py` line 199) and of
the `scrapers/axis_direct.py` card loop (line 150): a card's lead is
appended iff the extracted symbol is truthy — no trade-logic check. -/
def axisEmits (symbol : Option (List Char)) : Bool :=
  truthyS symbol

/-- Emission guard of `scrape_icici_ideas` (`scrapers.py` line 321): a
row's lead is appended iff the symbol is truthy — no trade-logic check. -/
def iciciEmits (symbol : Option (List Char)) : Bool :=
  truthyS symbol

/-- Emission guard of the `scrape_moneycontrol` card branch
(`scrapers/moneycontrol.py` line 164): `(symbol or company_name) and
(current_price or target_price)` — no trade-logic check. -/
def mcCardEmits (symbol company : Option (List Char))
    (current target : Option ℚ) : Bool :=
  (truthyS symbol || truthyS company) && (truthyQ current || truthyQ target)

/-- The lead built by `scrape_axis_ideas` for a card (`scrapers.py`
lines 200–206), `none` when the card is skipped. -/
def axisLead (symbol : Option (List Char)) (entry target stop_loss : Option ℚ) :
    Option Tip :=
  if axisEmits symbol then
    some ⟨symbol, none, entry, target, stop_loss, 0⟩
  else none

/-- The lead built by the `scrape_moneycontrol` card branch
(`scrapers/moneycontrol.py` lines 178–192), `none` when skipped;
`conf` is the confidence computed by the ladder below. -/
def mcCardLead (symbol company : Option (List Char))
    (current target stop_loss : Option ℚ) (conf : ℚ) : Option Tip :=
  if mcCardEmits symbol company current target then
    some ⟨symbol, company, current, target, stop_loss, conf⟩
  else none

/-! ## Confidence ladders -/

/-- Confidence accumulation of `base_scraper.extract_stock_details`
(lines 153–267) as a function of the branch conditions: `tgt` — a target
pattern matched (line 223), `sl` — a stop-loss pattern matched (line 237),
`rec` — an explicit buy/sell/hold keyword was found (lines 245/249/253),
`bonus` — entry and target prices are truthy, entry positive, and the
rounded growth lies in the 7–15 band (lines 261–267). -/
def esdConfidence (tgt sl rec bonus : Bool) : ℚ :=
  let c : ℚ := 1/2
  let c := if tgt then max c (3/5) else c
  let c := if sl then max c (13/20) else c
  let c := if rec then max c (7/10) else c
  if bonus then min (c + 3/20) 1 else c

/-- Confidence ladder of the `scrape_moneycontrol` card branch
(`scrapers/moneycontrol.py` lines 165–176): base 0.6; 0.65 if symbol;
0.75 if current and target; 0.8 if stop-loss; +0.15 capped at 1 when the
growth is in the target band. -/
def mcCardConfidence (sym cpTp sl bonus : Bool) : ℚ :=
  let c : ℚ := 3/5
  let c := if sym then (13/20 : ℚ) else c
  let c := if cpTp then (3/4 : ℚ) else c
  let c := if sl then (4/5 : ℚ) else c
  if bonus then min (c + 3/20) 1 else c

/-- Confidence ladder of the `scrape_moneycontrol` table branch
(`scrapers/moneycontrol.py` lines 300–310): base 0.7; 0.75 if symbol;
0.85 if current and target; +0.15 capped at 1 on the growth bonus.  The
stop-loss does not enter this ladder. -/
def mcTableConfidence (sym cpTp bonus : Bool) : ℚ :=
  let c : ℚ := 7/10
  let c := if sym then (3/4 : ℚ) else c
  let c := if cpTp then (17/20 : ℚ) else c
  if bonus then min (c + 3/20) 1 else c

/-! ## Anti-blocking fetch loop (`anti_blocking.py` lines 179–256)

The network is modelled as a list of per-attempt events supplied from
outside: each attempt either yields an HTTP response (status and body) or
raises a `RequestException`.  The list's length is the attempt budget
`retries_count`; the loop `while attempt < retries_count` consumes one
event per iteration.  Sleeps are recorded symbolically: the source sleeps
`(2 ** attempt) * random.uniform(lo, hi)` seconds, which we record as the
triple `(2 ^ attempt, lo, hi)`. -/

/-- One HTTP response: status code and body text. -/
structure Resp where
  status : ℕ
  text : List Char
deriving DecidableEq, Repr

/-- One fetch attempt's outcome at the transport layer. -/
inductive Attempt where
  | ok (r : Resp)
  | exn
deriving DecidableEq, Repr

/-- A recorded sleep `factor * uniform(lo, hi)` seconds. -/
structure SleepEvent where
  factor : ℕ
  lo : ℕ
  hi : ℕ
deriving DecidableEq, Repr

/-- The `content` component of `fetch_with_anti_blocking`'s returned
triple: the page text on success, or one of the error messages
(`f"HTTP Error: {status}"`, `f"Request Error: ..."`,
`"Max retries exceeded"`). -/
inductive FetchContent where
  | page (t : List Char)
  | httpError (status : ℕ)
  | reqError
  | maxRetries
deriving DecidableEq, Repr

/-- The `(success, content, status_code)` triple returned by
`fetch_with_anti_blocking`, together with the sleeps performed. -/
structure FetchOut where
  success : Bool
  content : FetchContent
  status : Option ℕ
  sleeps : List SleepEvent
deriving DecidableEq, Repr

/-- `c.toLower` applied characterwise: models Python `str.lower()`. -/
def lowerChars (s : List Char) : List Char :=
  s.map Char.toLower

/-- Python's substring test `needle in hay`. -/
def containsSub (hay needle : List Char) : Bool :=
  match hay with
  | [] => needle.isEmpty
  | _ :: t => needle.isPrefixOf hay || containsSub t needle

/-- The soft-block test of `anti_blocking.py` line 228:
`len(response.text) < 500 and ('captcha' in response.text.lower() or
'robot' in response.text.lower())`. -/
def isSoftBlock (text : List Char) : Bool :=
  decide (text.length < 500) &&
    (containsSub (lowerChars text) "captcha".data ||
      containsSub (lowerChars text) "robot".data)

/-- The `while attempt < retries_count` loop of `fetch_with_anti_blocking`
(`anti_blocking.py` lines 209–256).  `events` holds one transport event
per remaining attempt, `i` is the current value of `attempt`, `sl` the
sleeps performed so far.
* 200 + soft block: sleep `(2^attempt)*uniform(2,4)`, `attempt += 1`,
  `continue` (skipping the bottom backoff);
* 200 otherwise: return `(True, text, status)`;
* 403/429: sleep `(2^attempt)*uniform(2,5)`, then fall through to the
  bottom `attempt += 1` and backoff sleep `(2^attempt)*uniform(1,3)`;
* other status: return `(False, "HTTP Error: ...", status)`;
* `RequestException`: on the last attempt return
  `(False, "Request Error: ...", None)`, else fall through to the bottom
  increment and backoff;
* loop exhausted: return `(False, "Max retries exceeded", None)`. -/
def fetchLoop : List Attempt → ℕ → List SleepEvent → FetchOut
  | [], _, sl => ⟨false, .maxRetries, none, sl⟩
  | .exn :: rest, i, sl =>
    if rest.isEmpty then ⟨false, .reqError, none, sl⟩
    else fetchLoop rest (i + 1) (sl ++ [⟨2 ^ (i + 1), 1, 3⟩])
  | .ok r :: rest, i, sl =>
    if r.status = 200 then
      if isSoftBlock r.text then
        fetchLoop rest (i + 1) (sl ++ [⟨2 ^ i, 2, 4⟩])
      else ⟨true, .page r.text, some r.status, sl⟩
    else if r.status = 403 ∨ r.status = 429 then
      fetchLoop rest (i + 1) (sl ++ [⟨2 ^ i, 2, 5⟩, ⟨2 ^ (i + 1), 1, 3⟩])
    else ⟨false, .httpError r.status, some r.status, sl⟩

/-- `fetch_with_anti_blocking(url, retries, ...)` with the transport
events given: the loop starts at `attempt = 0` with no sleeps yet (the
pre-loop `_apply_delay` is per-site pacing, not backoff, and is omitted). -/
def fetch_with_anti_blocking (events : List Attempt) : FetchOut :=
  fetchLoop events 0 []

/-! ## Global deduplication (`data_processing.py` lines 63–97) -/

/-- Signature key space: the branch value used in
`key = f"{symbol}_{target}"` / `f"{company}_{target}"`.  The formatted
string is modelled as the pair of its two components: the float rendering
of `target` contains no underscore, so splitting at the last underscore
recovers the components and the two representations induce the same
equivalence on leads. -/
abbrev TipKey := Option (List Char) × Option ℚ

/-- The signature of `deduplicate_stock_tips` (lines 79–87): symbol-based
when `if symbol:` is truthy, else company-based; the target price is
always part of the key. -/
def tipKey (t : Tip) : TipKey :=
  match t.symbol with
  | some s => if s.isEmpty then (t.company_name, t.target_price)
              else (some s, t.target_price)
  | none => (t.company_name, t.target_price)

/-- Association-list lookup, modelling `key in unique_tips` /
`unique_tips[key]` on the insertion-ordered Python dict. -/
def alookup : List (TipKey × Tip) → TipKey → Option Tip
  | [], _ => none
  | p :: l, k => if p.1 = k then some p.2 else alookup l k

/-- In-place value update `unique_tips[key] = tip` for a key already
present (a Python dict keeps the key's original position). -/
def aset (l : List (TipKey × Tip)) (k : TipKey) (v : Tip) : List (TipKey × Tip) :=
  l.map fun p => if p.1 = k then (k, v) else p

/-- One iteration of the loop of `deduplicate_stock_tips` (lines 78–91):
`if key not in unique_tips or tip.confidence > unique_tips[key].confidence:
unique_tips[key] = tip`. -/
def updTip (acc : List (TipKey × Tip)) (t : Tip) : List (TipKey × Tip) :=
  match alookup acc (tipKey t) with
  | none => acc ++ [(tipKey t, t)]
  | some u => if u.confidence < t.confidence then aset acc (tipKey t) t else acc

/-- The full loop over the input tips. -/
def dedupGo : List Tip → List (TipKey × Tip) → List (TipKey × Tip)
  | [], acc => acc
  | t :: ts, acc => dedupGo ts (updTip acc t)

/-- `data_processing.deduplicate_stock_tips` (lines 63–97): build the
keyed dict then return `list(unique_tips.values())` (insertion order). -/
def deduplicate_stock_tips (tips : List Tip) : List Tip :=
  (dedupGo tips []).map Prod.snd

/-- Stable descending insertion by confidence: `t` is placed before the
first element whose confidence is `≤` its own.  Under the right fold
below, `t` precedes (in the original order) every element already in the
accumulator, so equal-confidence elements stay behind `t`, preserving the
original relative order of ties exactly as Python's stable
`sorted(..., reverse=True)` does. -/
def insConf (t : Tip) : List Tip → List Tip
  | [] => [t]
  | u :: us => if u.confidence ≤ t.confidence then t :: u :: us
               else u :: insConf t us

/-- Python's stable `sorted(tips, key=lambda x: x.confidence,
reverse=True)` (`data_processing.py` line 181), modelled as the stable
descending insertion sort (extensionally equal to any stable sort under
the same key). -/
def sortByConf (l : List Tip) : List Tip :=
  l.foldr insConf []

/-- An element of `consolidate_findings`' input list: either a per-source
list of tips or a bare tip (`isinstance(tips, list)` branch, lines
170–175). -/
abbrev TipsOrTip := List Tip ⊕ Tip

/-- One step of the flattening loop of `consolidate_findings`
(lines 170–175): extend on a list, append on a bare tip. -/
def flattenStep (acc : List Tip) (e : TipsOrTip) : List Tip :=
  match e with
  | Sum.inl l => acc ++ l
  | Sum.inr t => acc ++ [t]

/-- The flattening loop of `consolidate_findings` (lines 170–175). -/
def flattenSources (xs : List TipsOrTip) : List Tip :=
  xs.foldl flattenStep []

/-- `data_processing.consolidate_findings` (lines 159–184): flatten,
deduplicate, sort by confidence descending. -/
def consolidate_findings (xs : List TipsOrTip) : List Tip :=
  sortByConf (deduplicate_stock_tips (flattenSources xs))

/-! ## Per-page deduplication of `scrape_moneycontrol`
(`scrapers/moneycontrol.py` lines 330–343) -/

/-- The truthy symbol of a tip, if any (`if symbol:`). -/
def symTruthy (t : Tip) : Option (List Char) :=
  match t.symbol with
  | some s => if s.isEmpty then none else some s
  | none => none

/-- One iteration of the final loop of `scrape_moneycontrol`: a tip with
a truthy unseen symbol is appended and its symbol recorded; a tip with a
truthy seen symbol is dropped; a tip without truthy symbol is appended
unless an identical tip is already in `final_tips`. -/
def mcStep (st : List Tip × List (List Char)) (tip : Tip) :
    List Tip × List (List Char) :=
  match symTruthy tip with
  | some s => if s ∈ st.2 then st else (st.1 ++ [tip], st.2 ++ [s])
  | none => if tip ∈ st.1 then st else (st.1 ++ [tip], st.2)

/-- The per-page deduplication of `scrape_moneycontrol`: fold `mcStep`
over the page's tips starting from empty `final_tips` / `seen_symbols`. -/
def mcDedup (tips : List Tip) : List Tip :=
  (tips.foldl mcStep ([], [])).1

/-! ## `clean_price` (`base_scraper.py` lines 45–57, identical copy in
`scrapers.py` lines 53–72)

The function strips every character except digits and the decimal point
(`re.sub(r'[^\d.]', '', str(price_str))`) and applies `float(...)`; the
`try/except` catches `float`'s `ValueError` (more than one dot, or no
digit), and empty results return `None`.  Python floats are modelled as
exact rationals; Python's `str(float)` (shortest decimal representation
that round-trips) is modelled by `pyFloatStr` below. -/

/-- Python `str.strip()` whitespace set (ASCII part). -/
def isPySpace (c : Char) : Bool :=
  c == ' ' || c == '\t' || c == '\n' || c == '\r' || c == '\x0b' || c == '\x0c'

/-- Python `str.strip()`. -/
def pyStrip (s : List Char) : List Char :=
  ((s.dropWhile isPySpace).reverse.dropWhile isPySpace).reverse

/-- Python `str.upper()` (ASCII part). -/
def pyUpper (s : List Char) : List Char :=
  s.map Char.toUpper

/-- The character class kept by `re.sub(r'[^\d.]', '', ...)`. -/
def keepPriceChar (c : Char) : Bool :=
  c.isDigit || c == '.'

/-- The decimal digit character for `d < 10`. -/
def digitChar (d : ℕ) : Char :=
  Char.ofNat (48 + d)

/-- Numeric value of a digit character. -/
def digitVal (c : Char) : ℕ :=
  c.toNat - 48

/-- Decimal rendering of a natural number (most significant digit first). -/
def natChars (n : ℕ) : List Char :=
  if n = 0 then ['0'] else ((Nat.digits 10 n).map digitChar).reverse

/-- Value of a most-significant-first list of digit characters (the
integer or fractional digit block consumed by `float`). -/
def natOfChars (cs : List Char) : ℕ :=
  Nat.ofDigits 10 ((cs.map digitVal).reverse)

/-- Python `float(cleaned) if cleaned else None` on a string of digits
and dots: `None` for the empty string; a single optional dot splits
integer and fractional digits (`float` raises — here `none` — when the
string has two dots or is just `"."`). -/
def pyFloatOfFiltered (t : List Char) : Option ℚ :=
  if t.isEmpty then none
  else if t.count '.' = 0 then some (natOfChars t)
  else if t.count '.' = 1 then
    let ip := t.takeWhile (fun c => c != '.')
    let fp := (t.dropWhile (fun c => c != '.')).tail
    if ip.isEmpty && fp.isEmpty then none
    else some ((natOfChars ip : ℚ) + (natOfChars fp : ℚ) / 10 ^ fp.length)
  else none

/-- `clean_price`: `None` for `None`; `None` for a string whose
stripped-and-uppercased form is `NA`, `N/A` or `-`; otherwise filter to
digits and dots and convert. -/
def clean_price (x : Option (List Char)) : Option ℚ :=
  match x with
  | none => none
  | some s =>
    if pyUpper (pyStrip s) = "NA".data ∨ pyUpper (pyStrip s) = "N/A".data ∨
        pyUpper (pyStrip s) = "-".data then none
    else pyFloatOfFiltered (s.filter keepPriceChar)

/-- Fractional digit block of width `k` for the value `m < 10 ^ k`:
the digits of `m` left-padded with zeros. -/
def fracChars (m k : ℕ) : List Char :=
  ((Nat.digits 10 m ++ List.replicate (k - (Nat.digits 10 m).length) 0).map
    digitChar).reverse

/-- The least `k` with `q * 10 ^ k` integral (searched below `q.den + 1`,
which always suffices for decimal rationals; arbitrary fallback
otherwise). -/
def decExp (q : ℚ) : ℕ :=
  ((List.range (q.den + 1)).find? fun k => (q * 10 ^ k).den == 1).getD q.den

/-- Exponent digits of Python's scientific notation: zero-padded to at
least two digits (`str(1e-05)` ends in `05`, `str(1e+100)` in `100`). -/
def expDigits (e : ℕ) : List Char :=
  if e < 10 then '0' :: natChars e else natChars e

/-- Python's scientific rendering `d[.ddd]e±XX` of the value whose
shortest digit string is that of `n` with trailing zeros stripped and
whose leading digit has decimal exponent `e`. -/
def sciStr (n : ℕ) (e : ℤ) : List Char :=
  let cs := (((Nat.digits 10 n).dropWhile fun d => d == 0).map digitChar).reverse
  (match cs with
   | [] => ['0']
   | [c] => [c]
   | c :: rest => c :: '.' :: rest) ++
    'e' :: (if e < 0 then '-' :: expDigits e.natAbs else '+' :: expDigits e.natAbs)

/-- Python `str` of a nonnegative decimal float value.  Let `e` be the
decimal exponent of the leading digit (`e = ⌊log10 q⌋` for `q > 0`).
For `-4 ≤ e < 16` Python renders positionally — the shortest digit
string with at least one digit on each side of the point
(`str(250.0) = "250.0"`, `str(0.005) = "0.005"`, `str(0.0001) =
"0.0001"`); outside that range it renders in scientific notation
(`str(1e-05) = "1e-05"`, `str(1e16) = "1e+16"`). -/
def pyFloatStr (q : ℚ) : List Char :=
  let k := decExp q
  let n := (q * 10 ^ k).num.toNat
  let e : ℤ := ((Nat.digits 10 n).length : ℤ) - 1 - (k : ℤ)
  if -4 ≤ e ∧ e ≤ 15 then
    if k = 0 then natChars n ++ ['.', '0']
    else natChars (n / 10 ^ k) ++ '.' :: fracChars (n % 10 ^ k) k
  else sciStr n e

/-! ## Concrete example leads (spec §8, Scenario E and variants) -/

/-- Scenario E lead `{symbol:"TCS", target:3500, confidence:0.6}`. -/
def tcs06 : Tip := ⟨some "TCS".data, none, none, some 3500, none, 3/5⟩

/-- Scenario E lead `{symbol:"TCS", target:3500, confidence:0.9}`. -/
def tcs09 : Tip := ⟨some "TCS".data, none, none, some 3500, none, 9/10⟩

/-- A lead with the same symbol but a different target price
`{symbol:"TCS", target:4000, confidence:0.9}`. -/
def tcs09b : Tip := ⟨some "TCS".data, none, none, some 4000, none, 9/10⟩

/-! ## Specification-side helpers for the deduplication proofs -/

/-- The "first lead attaining the maximum confidence" of a nonempty group
`c :: g`, the lead the dict-based dedup loop retains for a key. -/
def firstMax (c : Tip) : List Tip → Tip
  | [] => c
  | t :: ts => if c.confidence < t.confidence then firstMax t ts else firstMax c ts

/-- Folding the dict-update rule of `deduplicate_stock_tips` over a
group of same-key tips, starting from an optional current occupant. -/
def pickBest : Option Tip → List Tip → Option Tip
  | z, [] => z
  | z, t :: ts =>
    pickBest
      (some (match z with
             | none => t
             | some u => if u.confidence < t.confidence then t else u)) ts

/-! # Theorems -/

/-- **C1.** The spec requires a fragment with `target_price <= stop_loss`
(both present) to be rejected at the adapter boundary, and
`validate_trade_logic` indeed returns `False` for such a fragment — but no
scraper ever calls it: `scrape_axis_ideas` and `scrape_icici_ideas` append
on a truthy symbol alone, and the `scrape_moneycontrol` card branch
appends whenever a name and a price are present.  At the failing input
(symbol `ABC`, entry 120, target 100, stop-loss 110) the invalid lead is
emitted by all three adapters. -/
theorem c1_invalid_trade_lead_is_emitted :
    validate_trade_logic (some 120) (some 100) (some 110) = false ∧
    axisLead (some "ABC".data) (some 120) (some 100) (some 110) =
      some ⟨some "ABC".data, none, some 120, some 100, some 110, 0⟩ ∧
    iciciEmits (some "ABC".data) = true ∧
    (mcCardLead (some "ABC".data) none (some 120) (some 100) (some 110)
      (mcCardConfidence true true true false)).isSome = true ∧
    (100 : ℚ) ≤ 110 := by
  decide

/-- **C2.** Every confidence ladder stays inside `[0, 1]` for every
combination of present/absent fields, and flipping only the stop-loss
signal from absent to present never decreases the confidence (the
moneycontrol table ladder ignores the stop-loss, hence is unchanged). -/
theorem c2_confidence_in_range_and_sl_monotone :
    (∀ tgt sl rec bonus : Bool,
      0 ≤ esdConfidence tgt sl rec bonus ∧ esdConfidence tgt sl rec bonus ≤ 1 ∧
      esdConfidence tgt false rec bonus ≤ esdConfidence tgt true rec bonus) ∧
    (∀ sym cpTp sl bonus : Bool,
      0 ≤ mcCardConfidence sym cpTp sl bonus ∧
      mcCardConfidence sym cpTp sl bonus ≤ 1 ∧
      mcCardConfidence sym cpTp false bonus ≤ mcCardConfidence sym cpTp true bonus) ∧
    (∀ sym cpTp bonus : Bool,
      0 ≤ mcTableConfidence sym cpTp bonus ∧ mcTableConfidence sym cpTp bonus ≤ 1) := by
  refine ⟨fun tgt sl rec bonus => ?_, fun sym cpTp sl bonus => ?_,
    fun sym cpTp bonus => ?_⟩
  · cases tgt <;> cases sl <;> cases rec <;> cases bonus <;>
      norm_num [esdConfidence, max_def, min_def]
  · cases sym <;> cases cpTp <;> cases sl <;> cases bonus <;>
      norm_num [mcCardConfidence, max_def, min_def]
  · cases sym <;> cases cpTp <;> cases bonus <;>
      norm_num [mcTableConfidence, max_def, min_def]

/-- **C3, counterexample.** Three straight HTTP 429 responses with a
budget of 3 attempts do exhaust the budget with `success = false`, but the
returned status code is `None` (the loop falls out and returns
`(False, "Max retries exceeded", None)`), not 429 as the claim states. -/
theorem c3_429_run_returns_none_status :
    (fetch_with_anti_blocking [.ok ⟨429, []⟩, .ok ⟨429, []⟩, .ok ⟨429, []⟩]).success
        = false ∧
    (fetch_with_anti_blocking [.ok ⟨429, []⟩, .ok ⟨429, []⟩, .ok ⟨429, []⟩]).status
        ≠ some 429 ∧
    (fetch_with_anti_blocking [.ok ⟨429, []⟩, .ok ⟨429, []⟩, .ok ⟨429, []⟩]).status
        = none := by
  decide

/-- **C3, amended.** With `retries = 3` and every attempt receiving
HTTP 429 (any bodies), the call exhausts the budget and returns the
failure `(False, "Max retries exceeded", None)`, having slept the
rate-limit backoffs `2^attempt * uniform(2,5)` for attempts 0, 1, 2
(factors 1 < 2 < 4, strictly increasing) interleaved with the general
backoffs `2^attempt * uniform(1,3)` (factors 2, 4, 8). -/
theorem c3_amended_429_exhaustion (b1 b2 b3 : List Char) :
    fetch_with_anti_blocking [.ok ⟨429, b1⟩, .ok ⟨429, b2⟩, .ok ⟨429, b3⟩] =
      ⟨false, .maxRetries, none,
        [⟨1, 2, 5⟩, ⟨2, 1, 3⟩, ⟨2, 2, 5⟩, ⟨4, 1, 3⟩, ⟨4, 2, 5⟩, ⟨8, 1, 3⟩]⟩ := by
  rfl

/-- Witness for the amended C3 at concrete bodies. -/
theorem c3_amended_429_exhaustion_witness :
    fetch_with_anti_blocking [.ok ⟨429, []⟩, .ok ⟨429, "x".data⟩, .ok ⟨429, []⟩] =
      ⟨false, .maxRetries, none,
        [⟨1, 2, 5⟩, ⟨2, 1, 3⟩, ⟨2, 2, 5⟩, ⟨4, 1, 3⟩, ⟨4, 2, 5⟩, ⟨8, 1, 3⟩]⟩ :=
  c3_amended_429_exhaustion [] "x".data []

/-- **C4.** An HTTP 200 response whose body is shorter than 500
characters and contains `captcha` or `robot` (case-insensitive) is a soft
block: the loop sleeps `2^attempt * uniform(2,4)` and proceeds to the next
attempt — it is never returned as a successful outcome. -/
theorem c4_soft_block_is_retried (body : List Char) (rest : List Attempt)
    (i : ℕ) (sl : List SleepEvent) (hlen : body.length < 500)
    (hkey : (containsSub (lowerChars body) "captcha".data ||
             containsSub (lowerChars body) "robot".data) = true) :
    fetchLoop (.ok ⟨200, body⟩ :: rest) i sl =
      fetchLoop rest (i + 1) (sl ++ [⟨2 ^ i, 2, 4⟩]) := by
  simp [fetchLoop, isSoftBlock, hlen, hkey]

/-- Witness for C4: a 300-character HTTP 200 body containing `captcha`
is retried, not returned (spec §8 Scenario D). -/
theorem c4_soft_block_is_retried_witness :
    fetchLoop [.ok ⟨200, "captcha".data ++ List.replicate 293 'x'⟩] 0 [] =
      fetchLoop [] 1 [⟨1, 2, 4⟩] :=
  c4_soft_block_is_retried ("captcha".data ++ List.replicate 293 'x') [] 0 []
    (by set_option maxRecDepth 4000 in decide)
    (by set_option maxRecDepth 4000 in decide)

/-- **C5, counterexample.** `calculate_growth_percent` does not round:
at entry 3, target 4 it returns exactly `100/3`, which is not a
two-decimal value (no integer `n` has `100/3 = n/100`); and at entry 100,
target 0 it returns `None` although both prices are present and the entry
is positive (Python falsiness of `0`), where the claim demands `-100.0`. -/
theorem c5_growth_not_rounded_and_zero_target :
    calculate_growth_percent (some 3) (some 4) = some (100 / 3) ∧
    (¬ ∃ n : ℤ, (100 : ℚ) / 3 = (n : ℚ) / 100) ∧
    calculate_growth_percent (some 100) (some 0) = none := by
  refine ⟨?_, ?_, by decide⟩
  · norm_num [calculate_growth_percent, truthyQ]
  · rintro ⟨n, h⟩
    rw [div_eq_div_iff (by norm_num) (by norm_num)] at h
    have h' : (10000 : ℤ) = n * 3 := by exact_mod_cast h
    omega

/-- **C5, amended.** `calculate_growth_percent` returns `None` whenever
the entry or the target is `None` or `0` (Python truthiness) or the entry
is nonpositive; when the entry is positive and the target present and
nonzero it returns the exact, unrounded value `(target - entry) / entry *
100` (rounding to two decimals is applied by the callers). -/
theorem c5_amended_growth_exact :
    (∀ t, calculate_growth_percent none t = none) ∧
    (∀ e, calculate_growth_percent e none = none) ∧
    (∀ t, calculate_growth_percent (some 0) t = none) ∧
    (∀ e, calculate_growth_percent e (some 0) = none) ∧
    (∀ e t : ℚ, e ≤ 0 → calculate_growth_percent (some e) (some t) = none) ∧
    (∀ e t : ℚ, 0 < e → t ≠ 0 →
      calculate_growth_percent (some e) (some t) = some ((t - e) / e * 100)) := by
  refine ⟨fun t => rfl, fun e => ?_, fun t => ?_, fun e => ?_, fun e t he => ?_,
    fun e t he ht => ?_⟩
  · cases e <;> simp [calculate_growth_percent, truthyQ]
  · simp [calculate_growth_percent, truthyQ]
  · cases e <;> simp [calculate_growth_percent, truthyQ]
  · rcases eq_or_ne e 0 with rfl | hne
    · simp [calculate_growth_percent, truthyQ]
    · simp [calculate_growth_percent, truthyQ, hne, he]
  · simp [calculate_growth_percent, truthyQ, he.ne', ht, not_le.mpr he]

/-- Witness for the amended C5 at entry 4, target 5: the exact value is
`25`. -/
theorem c5_amended_growth_exact_witness :
    calculate_growth_percent (some 4) (some 5) = some 25 := by
  have h := c5_amended_growth_exact.2.2.2.2.2 4 5 (by norm_num) (by norm_num)
  rw [h]
  norm_num

/-- **C8, counterexample.** The within-page deduplication of
`scrape_moneycontrol` does not use the composite `(symbol, target_price)`
key and does not keep the highest-confidence entry: for two leads with the
same symbol `TCS` but different targets 3500/4000 and confidences 0.6/0.9
— distinct composite keys, so the claim retains both — the code keeps only
the first (lower-confidence) one. -/
theorem c8_mc_dedup_is_symbol_only_first_kept :
    mcDedup [tcs06, tcs09b] = [tcs06] ∧ tcs09b ∉ mcDedup [tcs06, tcs09b] ∧
    tipKey tcs06 ≠ tipKey tcs09b ∧ tcs06.confidence < tcs09b.confidence := by
  have h : mcDedup [tcs06, tcs09b] = [tcs06] := rfl
  refine ⟨h, ?_, ?_, ?_⟩
  · rw [h]
    intro hmem
    have : tcs09b = tcs06 := List.mem_singleton.mp hmem
    simp [tcs06, tcs09b] at this
  · simp [tipKey, tcs06, tcs09b]
  · show (3 : ℚ) / 5 < 9 / 10
    norm_num

/-! ## Association-list lemmas for the dict model -/

theorem alookup_append (l1 l2 : List (TipKey × Tip)) (k : TipKey) :
    alookup (l1 ++ l2) k =
      match alookup l1 k with
      | some v => some v
      | none => alookup l2 k := by
  induction l1 with
  | nil => rfl
  | cons p l ih =>
    by_cases h : p.1 = k
    · simp [alookup, h]
    · simp [alookup, h, ih]

theorem alookup_eq_none_iff (l : List (TipKey × Tip)) (k : TipKey) :
    alookup l k = none ↔ k ∉ l.map Prod.fst := by
  induction l with
  | nil => simp [alookup]
  | cons p l ih =>
    by_cases h : p.1 = k
    · simp [alookup, h]
    · simp [alookup, h, ih, Ne.symm h]

theorem mem_of_alookup_some {l : List (TipKey × Tip)} {k : TipKey} {v : Tip}
    (h : alookup l k = some v) : (k, v) ∈ l := by
  induction l with
  | nil => simp [alookup] at h
  | cons p l ih =>
    obtain ⟨a, b⟩ := p
    by_cases hp : a = k
    · subst hp
      simp only [alookup, if_pos rfl] at h
      cases h
      exact List.mem_cons_self _ _
    · simp only [alookup, hp, if_false, if_neg hp] at h
      exact List.mem_cons_of_mem _ (ih h)

theorem alookup_of_mem_nodup {l : List (TipKey × Tip)} {k : TipKey} {v : Tip}
    (hnd : (l.map Prod.fst).Nodup) (hm : (k, v) ∈ l) : alookup l k = some v := by
  induction l with
  | nil => simp at hm
  | cons p l ih =>
    simp only [List.map_cons, List.nodup_cons] at hnd
    rcases List.mem_cons.mp hm with h | h
    · subst h
      simp [alookup]
    · have hk : p.1 ≠ k := by
        intro he
        exact hnd.1 (he ▸ (List.mem_map.mpr ⟨(k, v), h, rfl⟩))
      simp [alookup, hk, ih hnd.2 h]

theorem aset_cons (p : TipKey × Tip) (l : List (TipKey × Tip)) (k : TipKey)
    (v : Tip) :
    aset (p :: l) k v = (if p.1 = k then (k, v) else p) :: aset l k v := rfl

theorem map_fst_aset (l : List (TipKey × Tip)) (k : TipKey) (v : Tip) :
    (aset l k v).map Prod.fst = l.map Prod.fst := by
  induction l with
  | nil => rfl
  | cons p l ih =>
    rw [aset_cons]
    obtain ⟨a, b⟩ := p
    by_cases hp : a = k
    · simp [hp, ih]
    · simp [hp, ih]

theorem alookup_aset_self {l : List (TipKey × Tip)} {k : TipKey} (v : Tip)
    (h : alookup l k ≠ none) : alookup (aset l k v) k = some v := by
  induction l with
  | nil => simp [alookup] at h
  | cons p l ih =>
    rw [aset_cons]
    obtain ⟨a, b⟩ := p
    by_cases hp : a = k
    · simp [hp, alookup]
    · simp only [alookup, if_neg hp] at h
      simp [hp, alookup, ih h]

theorem alookup_aset_other {l : List (TipKey × Tip)} {k k' : TipKey} (v : Tip)
    (h : k' ≠ k) : alookup (aset l k v) k' = alookup l k' := by
  induction l with
  | nil => rfl
  | cons p l ih =>
    rw [aset_cons]
    obtain ⟨a, b⟩ := p
    by_cases hp : a = k
    · simp [hp, alookup, Ne.symm h, ih]
    · by_cases hp' : a = k'
      · simp [hp, hp', alookup, h]
      · simp [hp, hp', alookup, ih]

/-! ## The dict-update step and the loop characterization -/

theorem updTip_of_none {acc : List (TipKey × Tip)} {t : Tip}
    (h : alookup acc (tipKey t) = none) :
    updTip acc t = acc ++ [(tipKey t, t)] := by
  unfold updTip
  rw [h]

theorem updTip_of_some {acc : List (TipKey × Tip)} {t u : Tip}
    (h : alookup acc (tipKey t) = some u) :
    updTip acc t =
      if u.confidence < t.confidence then aset acc (tipKey t) t else acc := by
  unfold updTip
  rw [h]

theorem alookup_updTip_self (acc : List (TipKey × Tip)) (t : Tip) :
    alookup (updTip acc t) (tipKey t) =
      some (match alookup acc (tipKey t) with
            | none => t
            | some u => if u.confidence < t.confidence then t else u) := by
  cases hl : alookup acc (tipKey t) with
  | none =>
    rw [updTip_of_none hl, alookup_append, hl]
    simp [alookup]
  | some u =>
    rw [updTip_of_some hl]
    show _ = some (if u.confidence < t.confidence then t else u)
    by_cases hc : u.confidence < t.confidence
    · rw [if_pos hc, if_pos hc]
      exact alookup_aset_self t (by rw [hl]; exact fun hx => Option.noConfusion hx)
    · rw [if_neg hc, if_neg hc]
      exact hl

theorem alookup_updTip_other (acc : List (TipKey × Tip)) (t : Tip)
    (k : TipKey) (h : k ≠ tipKey t) :
    alookup (updTip acc t) k = alookup acc k := by
  cases hl : alookup acc (tipKey t) with
  | none =>
    rw [updTip_of_none hl, alookup_append]
    cases hk : alookup acc k with
    | none => simp [alookup, Ne.symm h]
    | some v => rfl
  | some u =>
    rw [updTip_of_some hl]
    by_cases hc : u.confidence < t.confidence
    · rw [if_pos hc]
      exact alookup_aset_other t h
    · rw [if_neg hc]

theorem fst_updTip {acc : List (TipKey × Tip)} {t : Tip}
    (hinv : ∀ p ∈ acc, p.1 = tipKey p.2) :
    ∀ p ∈ updTip acc t, p.1 = tipKey p.2 := by
  intro p hp
  cases hl : alookup acc (tipKey t) with
  | none =>
    rw [updTip_of_none hl] at hp
    rcases List.mem_append.mp hp with h | h
    · exact hinv p h
    · rcases List.mem_singleton.mp h with rfl
      rfl
  | some u =>
    rw [updTip_of_some hl] at hp
    by_cases hc : u.confidence < t.confidence
    · rw [if_pos hc] at hp
      rcases List.mem_map.mp hp with ⟨q, hq, hqe⟩
      by_cases hqk : q.1 = tipKey t
      · rw [if_pos hqk] at hqe
        rw [← hqe]
      · rw [if_neg hqk] at hqe
        exact hqe ▸ hinv q hq
    · rw [if_neg hc] at hp
      exact hinv p hp

theorem map_fst_updTip_nodup {acc : List (TipKey × Tip)} {t : Tip}
    (hnd : (acc.map Prod.fst).Nodup) :
    ((updTip acc t).map Prod.fst).Nodup := by
  cases hl : alookup acc (tipKey t) with
  | none =>
    rw [updTip_of_none hl, List.map_append]
    simp only [List.map_cons, List.map_nil]
    rw [List.nodup_append]
    refine ⟨hnd, List.nodup_singleton _, ?_⟩
    intro k hk hk1
    rcases List.mem_singleton.mp hk1 with rfl
    exact ((alookup_eq_none_iff acc (tipKey t)).mp hl) hk
  | some u =>
    rw [updTip_of_some hl]
    by_cases hc : u.confidence < t.confidence
    · rw [if_pos hc, map_fst_aset]
      exact hnd
    · rw [if_neg hc]
      exact hnd

theorem alookup_dedupGo (ts : List Tip) :
    ∀ (acc : List (TipKey × Tip)) (k : TipKey),
      alookup (dedupGo ts acc) k =
        pickBest (alookup acc k) (ts.filter fun t => decide (tipKey t = k)) := by
  induction ts with
  | nil =>
    intro acc k
    show alookup acc k =
      pickBest (alookup acc k) (List.filter (fun t => decide (tipKey t = k)) [])
    cases alookup acc k <;> rfl
  | cons t ts ih =>
    intro acc k
    show alookup (dedupGo ts (updTip acc t)) k = _
    rw [ih (updTip acc t) k]
    by_cases hk : tipKey t = k
    · subst hk
      rw [alookup_updTip_self]
      simp only [List.filter_cons, decide_eq_true_eq, if_pos rfl, decide_True]
      cases hl : alookup acc (tipKey t) with
      | none => simp [pickBest]
      | some u => simp [pickBest]
    · rw [alookup_updTip_other acc t k (fun he => hk he.symm)]
      simp only [List.filter_cons]
      rw [if_neg (by simp [hk])]

/-! ## firstMax: the first lead attaining the maximal confidence -/

theorem pickBest_cons (z t : Tip) (ts : List Tip) :
    pickBest (some z) (t :: ts) =
      pickBest (some (if z.confidence < t.confidence then t else z)) ts := rfl

theorem firstMax_cons (c t : Tip) (ts : List Tip) :
    firstMax c (t :: ts) =
      if c.confidence < t.confidence then firstMax t ts else firstMax c ts := rfl

theorem pickBest_some (c : Tip) (g : List Tip) :
    pickBest (some c) g = some (firstMax c g) := by
  induction g generalizing c with
  | nil => rfl
  | cons t ts ih =>
    rw [pickBest_cons, firstMax_cons]
    by_cases hc : c.confidence < t.confidence
    · rw [if_pos hc, if_pos hc, ih]
    · rw [if_neg hc, if_neg hc, ih]

theorem confidence_le_firstMax (c : Tip) (g : List Tip) :
    c.confidence ≤ (firstMax c g).confidence := by
  induction g generalizing c with
  | nil => exact le_refl _
  | cons t ts ih =>
    rw [firstMax_cons]
    by_cases hc : c.confidence < t.confidence
    · rw [if_pos hc]
      exact le_of_lt (lt_of_lt_of_le hc (ih t))
    · rw [if_neg hc]
      exact ih c

theorem firstMax_split (g : List Tip) :
    ∀ c : Tip, ∃ l r, c :: g = l ++ firstMax c g :: r ∧
      (∀ u ∈ l, u.confidence < (firstMax c g).confidence) ∧
      (∀ u ∈ r, u.confidence ≤ (firstMax c g).confidence) := by
  induction g with
  | nil =>
    intro c
    exact ⟨[], [], rfl, by simp, by simp⟩
  | cons t ts ih =>
    intro c
    by_cases hc : c.confidence < t.confidence
    · obtain ⟨l, r, hsplit, hl, hr⟩ := ih t
      have hfm : firstMax c (t :: ts) = firstMax t ts := by
        rw [firstMax_cons, if_pos hc]
      refine ⟨c :: l, r, ?_, ?_, ?_⟩
      · rw [hfm, List.cons_append, ← hsplit]
      · intro u hu
        rw [hfm]
        rcases List.mem_cons.mp hu with rfl | hu'
        · exact lt_of_lt_of_le hc (confidence_le_firstMax t ts)
        · exact hl u hu'
      · intro u hu
        rw [hfm]
        exact hr u hu
    · obtain ⟨l, r, hsplit, hl, hr⟩ := ih c
      have hfm : firstMax c (t :: ts) = firstMax c ts := by
        rw [firstMax_cons, if_neg hc]
      rcases l with _ | ⟨x, l'⟩
      · -- the maximum is `c` itself: insert `t` at the head of the tail
        simp only [List.nil_append] at hsplit
        have hc_eq : firstMax c ts = c := (List.cons.injEq _ _ _ _ ▸ hsplit).1.symm
        have hr' : r = ts := (List.cons.injEq _ _ _ _ ▸ hsplit).2.symm
        refine ⟨[], t :: r, ?_, by simp, ?_⟩
        · rw [hfm, List.nil_append, hc_eq, hr']
        · intro u hu
          rw [hfm, hc_eq]
          rcases List.mem_cons.mp hu with rfl | hu'
          · exact not_lt.mp hc
          · exact hc_eq ▸ hr u hu'
      · -- the maximum lies in the tail: `c` stays first, `t` goes after it
        have hx : c = x := by
          have h1 := congrArg List.head? hsplit
          simpa using h1
        subst hx
        have htail : ts = l' ++ firstMax c ts :: r := by
          have h1 := congrArg List.tail hsplit
          simpa using h1
        refine ⟨c :: t :: l', r, ?_, ?_, ?_⟩
        · rw [hfm, List.cons_append, List.cons_append, ← htail]
        · intro u hu
          rw [hfm]
          rcases List.mem_cons.mp hu with rfl | hu'
          · exact hl u (List.mem_cons_self _ _)
          · rcases List.mem_cons.mp hu' with rfl | hu''
            · have hxlt : c.confidence < (firstMax c ts).confidence :=
                hl c (List.mem_cons_self _ _)
              exact lt_of_le_of_lt (not_lt.mp hc) hxlt
            · exact hl u (List.mem_cons_of_mem _ hu'')
        · intro u hu
          rw [hfm]
          exact hr u hu

theorem firstMax_mem (c : Tip) (g : List Tip) : firstMax c g ∈ c :: g := by
  obtain ⟨l, r, hsplit, -, -⟩ := firstMax_split g c
  rw [hsplit]
  exact List.mem_append.mpr (Or.inr (List.mem_cons_self _ _))

theorem le_firstMax_of_mem {c : Tip} {g : List Tip} {u : Tip}
    (hu : u ∈ c :: g) : u.confidence ≤ (firstMax c g).confidence := by
  obtain ⟨l, r, hsplit, hl, hr⟩ := firstMax_split g c
  rw [hsplit] at hu
  rcases List.mem_append.mp hu with h | h
  · exact le_of_lt (hl u h)
  · rcases List.mem_cons.mp h with rfl | h'
    · exact le_refl _
    · exact hr u h'

/-! ## Invariants of the dedup loop and the output characterization -/

theorem pickBest_none_cons (t : Tip) (ts : List Tip) :
    pickBest none (t :: ts) = pickBest (some t) ts := rfl

theorem dedupGo_fst_invariant (ts : List Tip) :
    ∀ acc : List (TipKey × Tip), (∀ p ∈ acc, p.1 = tipKey p.2) →
      ∀ p ∈ dedupGo ts acc, p.1 = tipKey p.2 := by
  induction ts with
  | nil => intro acc h; exact h
  | cons t ts ih =>
    intro acc h
    exact ih (updTip acc t) (fst_updTip h)

theorem dedupGo_keys_nodup (ts : List Tip) :
    ∀ acc : List (TipKey × Tip), ((acc.map Prod.fst)).Nodup →
      (((dedupGo ts acc).map Prod.fst)).Nodup := by
  induction ts with
  | nil => intro acc h; exact h
  | cons t ts ih =>
    intro acc h
    exact ih (updTip acc t) (map_fst_updTip_nodup h)

theorem mem_dedup_iff {tips : List Tip} {t : Tip} :
    t ∈ deduplicate_stock_tips tips ↔
      alookup (dedupGo tips []) (tipKey t) = some t := by
  constructor
  · intro h
    rcases List.mem_map.mp h with ⟨p, hp, hpt⟩
    have hfst : p.1 = tipKey p.2 :=
      dedupGo_fst_invariant tips [] (by simp) p hp
    have hnd : ((dedupGo tips []).map Prod.fst).Nodup :=
      dedupGo_keys_nodup tips [] (by simp)
    have hpair : (tipKey t, t) ∈ dedupGo tips [] := by
      have : p = (tipKey t, t) := by
        obtain ⟨pk, pv⟩ := p
        simp only at hpt hfst
        rw [hpt] at hfst ⊢
        rw [hfst]
      exact this ▸ hp
    exact alookup_of_mem_nodup hnd hpair
  · intro h
    exact List.mem_map.mpr ⟨(tipKey t, t), mem_of_alookup_some h, rfl⟩

theorem dedup_group_char {tips : List Tip} {t : Tip}
    (h : t ∈ deduplicate_stock_tips tips) :
    ∃ c g, tips.filter (fun u => decide (tipKey u = tipKey t)) = c :: g ∧
      t = firstMax c g := by
  have hl := mem_dedup_iff.mp h
  rw [alookup_dedupGo tips [] (tipKey t)] at hl
  cases hg : tips.filter fun u => decide (tipKey u = tipKey t) with
  | nil =>
    rw [hg] at hl
    exact absurd hl (by simp [pickBest, alookup])
  | cons c g =>
    rw [hg, show alookup ([] : List (TipKey × Tip)) (tipKey t) = none from rfl,
      pickBest_none_cons, pickBest_some] at hl
    refine ⟨c, g, rfl, ?_⟩
    exact (Option.some.inj hl).symm

theorem dedup_mem_sub {tips : List Tip} {t : Tip}
    (h : t ∈ deduplicate_stock_tips tips) : t ∈ tips := by
  obtain ⟨c, g, hg, hfm⟩ := dedup_group_char h
  have : t ∈ tips.filter fun u => decide (tipKey u = tipKey t) := by
    rw [hg, hfm]
    exact firstMax_mem c g
  exact (List.mem_filter.mp this).1

theorem dedup_maximal {tips : List Tip} {t t' : Tip}
    (h : t ∈ deduplicate_stock_tips tips) (h' : t' ∈ tips)
    (hk : tipKey t' = tipKey t) : t'.confidence ≤ t.confidence := by
  obtain ⟨c, g, hg, hfm⟩ := dedup_group_char h
  have hmem : t' ∈ tips.filter fun u => decide (tipKey u = tipKey t) :=
    List.mem_filter.mpr ⟨h', by simp [hk]⟩
  rw [hg] at hmem
  rw [hfm]
  exact le_firstMax_of_mem hmem

theorem dedup_key_surjective {tips : List Tip} {t' : Tip} (h' : t' ∈ tips) :
    ∃ t, t ∈ deduplicate_stock_tips tips ∧ tipKey t = tipKey t' := by
  have hne : t' ∈ tips.filter fun u => decide (tipKey u = tipKey t') :=
    List.mem_filter.mpr ⟨h', by simp⟩
  cases hg : tips.filter fun u => decide (tipKey u = tipKey t') with
  | nil => rw [hg] at hne; simp at hne
  | cons c g =>
    have hlk : alookup (dedupGo tips []) (tipKey t') = some (firstMax c g) := by
      rw [alookup_dedupGo tips [] (tipKey t')]
      show pickBest (alookup [] (tipKey t')) _ = _
      rw [hg]
      show pickBest none (c :: g) = _
      rw [pickBest_none_cons, pickBest_some]
    have hkey : tipKey (firstMax c g) = tipKey t' := by
      have : firstMax c g ∈ tips.filter fun u => decide (tipKey u = tipKey t') := by
        rw [hg]; exact firstMax_mem c g
      simpa using (List.mem_filter.mp this).2
    refine ⟨firstMax c g, ?_, hkey⟩
    exact List.mem_map.mpr ⟨(tipKey t', firstMax c g), mem_of_alookup_some hlk, rfl⟩

theorem dedup_map_tipKey_nodup (tips : List Tip) :
    ((deduplicate_stock_tips tips).map tipKey).Nodup := by
  have h1 : (deduplicate_stock_tips tips).map tipKey =
      (dedupGo tips []).map Prod.fst := by
    unfold deduplicate_stock_tips
    rw [List.map_map]
    refine List.map_congr_left ?_
    intro p hp
    exact (dedupGo_fst_invariant tips [] (by simp) p hp).symm
  rw [h1]
  exact dedupGo_keys_nodup tips [] (by simp)

theorem dedup_first_on_ties {tips : List Tip} {t : Tip}
    (h : t ∈ deduplicate_stock_tips tips) :
    ∃ l r, tips.filter (fun u => decide (tipKey u = tipKey t)) = l ++ t :: r ∧
      (∀ u ∈ l, u.confidence < t.confidence) ∧
      (∀ u ∈ r, u.confidence ≤ t.confidence) := by
  obtain ⟨c, g, hg, hfm⟩ := dedup_group_char h
  obtain ⟨l, r, hsplit, hl, hr⟩ := firstMax_split g c
  exact ⟨l, r, by rw [hg, hsplit, hfm], by rw [hfm]; exact hl, by rw [hfm]; exact hr⟩

/-- **C7.** `deduplicate_stock_tips` groups leads by the signature
`(symbol, target_price)` when the symbol is truthy, else
`(company_name, target_price)`; every output lead is an input lead, output
keys are pairwise distinct, every input lead's key is represented, and the
retained lead of each group is strictly-highest-confidence, first on ties
(every earlier groupmate is strictly smaller, every later one is `≤`); in
particular the two `{TCS, 3500}` leads with confidences 0.6 and 0.9
consolidate to the single 0.9 lead. -/
theorem c7_global_dedup_keeps_first_highest_confidence :
    (∀ tips t, t ∈ deduplicate_stock_tips tips → t ∈ tips) ∧
    (∀ tips t t', t ∈ deduplicate_stock_tips tips → t' ∈ tips →
      tipKey t' = tipKey t → t'.confidence ≤ t.confidence) ∧
    (∀ tips t', t' ∈ tips →
      ∃ t, t ∈ deduplicate_stock_tips tips ∧ tipKey t = tipKey t') ∧
    (∀ tips, ((deduplicate_stock_tips tips).map tipKey).Nodup) ∧
    (∀ tips t, t ∈ deduplicate_stock_tips tips →
      ∃ l r, tips.filter (fun u => decide (tipKey u = tipKey t)) = l ++ t :: r ∧
        (∀ u ∈ l, u.confidence < t.confidence) ∧
        (∀ u ∈ r, u.confidence ≤ t.confidence)) ∧
    deduplicate_stock_tips [tcs06, tcs09] = [tcs09] := by
  refine ⟨fun tips t h => dedup_mem_sub h,
    fun tips t t' h h' hk => dedup_maximal h h' hk,
    fun tips t' h' => dedup_key_surjective h',
    dedup_map_tipKey_nodup,
    fun tips t h => dedup_first_on_ties h, ?_⟩
  have hconf : tcs06.confidence < tcs09.confidence := by
    show (3 : ℚ) / 5 < 9 / 10
    norm_num
  have hlk : alookup [(tipKey tcs06, tcs06)] (tipKey tcs09) = some tcs06 := by
    have hk : tipKey tcs09 = tipKey tcs06 := rfl
    rw [hk]
    simp [alookup]
  have h9 : updTip [(tipKey tcs06, tcs06)] tcs09 = [(tipKey tcs09, tcs09)] := by
    rw [updTip_of_some hlk, if_pos hconf]
    have hk : tipKey tcs06 = tipKey tcs09 := rfl
    simp [aset, hk]
  show (updTip (updTip [] tcs06) tcs09).map Prod.snd = [tcs09]
  have h6 : updTip [] tcs06 = [(tipKey tcs06, tcs06)] := rfl
  rw [h6, h9]
  rfl

/-- Witness for C7: the retained Scenario E lead is one of the inputs. -/
theorem c7_global_dedup_witness : tcs09 ∈ [tcs06, tcs09] :=
  c7_global_dedup_keeps_first_highest_confidence.1 [tcs06, tcs09] tcs09
    (by rw [c7_global_dedup_keeps_first_highest_confidence.2.2.2.2.2]
        exact List.mem_singleton.mpr rfl)

/-! ## Idempotence of consolidation (C9) -/

theorem dedupGo_of_fresh (ts : List Tip) :
    ∀ acc : List (TipKey × Tip), (ts.map tipKey).Nodup →
      (∀ t ∈ ts, tipKey t ∉ acc.map Prod.fst) →
      dedupGo ts acc = acc ++ ts.map fun t => (tipKey t, t) := by
  induction ts with
  | nil => intro acc _ _; simp [dedupGo]
  | cons t ts ih =>
    intro acc hnd hdis
    have hlk : alookup acc (tipKey t) = none :=
      (alookup_eq_none_iff _ _).mpr (hdis t (List.mem_cons_self _ _))
    show dedupGo ts (updTip acc t) = _
    rw [updTip_of_none hlk]
    rw [List.map_cons, List.nodup_cons] at hnd
    rw [ih (acc ++ [(tipKey t, t)]) hnd.2 ?fresh]
    · simp
    case fresh =>
      intro u hu
      rw [List.map_append, List.mem_append]
      rintro (h | h)
      · exact hdis u (List.mem_cons_of_mem _ hu) h
      · rcases List.mem_singleton.mp h with he
        exact hnd.1 (by
          simp only [List.map_cons, List.mem_singleton] at he
          exact he ▸ List.mem_map.mpr ⟨u, hu, rfl⟩)

theorem dedup_eq_self_of_nodup {tips : List Tip}
    (hnd : (tips.map tipKey).Nodup) : deduplicate_stock_tips tips = tips := by
  unfold deduplicate_stock_tips
  rw [dedupGo_of_fresh tips [] hnd (by simp)]
  rw [List.nil_append, List.map_map]
  rw [show (Prod.snd ∘ fun t : Tip => (tipKey t, t)) = id from rfl, List.map_id]

theorem insConf_perm (t : Tip) (l : List Tip) : List.Perm (insConf t l) (t :: l) := by
  induction l with
  | nil => exact List.Perm.refl _
  | cons u us ih =>
    show List.Perm (if u.confidence ≤ t.confidence then t :: u :: us
          else u :: insConf t us) (t :: u :: us)
    by_cases hc : u.confidence ≤ t.confidence
    · rw [if_pos hc]
    · rw [if_neg hc]
      exact (ih.cons u).trans (List.Perm.swap t u us)

theorem sortByConf_perm (l : List Tip) : List.Perm (sortByConf l) l := by
  induction l with
  | nil => exact List.Perm.refl _
  | cons t ts ih =>
    show List.Perm (insConf t (sortByConf ts)) (t :: ts)
    exact (insConf_perm t (sortByConf ts)).trans (ih.cons t)

theorem flatten_foldl_inr (l : List Tip) :
    ∀ acc : List Tip,
      List.foldl flattenStep acc (l.map Sum.inr) = acc ++ l := by
  induction l with
  | nil => intro acc; simp
  | cons t ts ih =>
    intro acc
    show List.foldl _ (acc ++ [t]) (ts.map Sum.inr) = _
    rw [ih (acc ++ [t])]
    simp

theorem flattenSources_map_inr (l : List Tip) :
    flattenSources (l.map Sum.inr) = l := by
  show List.foldl _ [] (l.map Sum.inr) = l
  rw [flatten_foldl_inr l []]
  rfl

/-- **C9.** `consolidate_findings` is idempotent up to the emitted set:
feeding its own output back (each lead as a bare, non-list element, as the
flattening loop's `isinstance` branch treats it) yields a list with
exactly the same members. -/
theorem c9_consolidation_idempotent (xs : List TipsOrTip) (t : Tip) :
    t ∈ consolidate_findings ((consolidate_findings xs).map Sum.inr) ↔
      t ∈ consolidate_findings xs := by
  have hperm : List.Perm
      (sortByConf (deduplicate_stock_tips (flattenSources xs)))
      (deduplicate_stock_tips (flattenSources xs)) :=
    sortByConf_perm _
  have hnd : ((sortByConf (deduplicate_stock_tips (flattenSources xs))).map
      tipKey).Nodup :=
    (hperm.map tipKey).nodup_iff.mpr (dedup_map_tipKey_nodup _)
  have h1 : consolidate_findings ((consolidate_findings xs).map Sum.inr) =
      sortByConf (deduplicate_stock_tips
        (sortByConf (deduplicate_stock_tips (flattenSources xs)))) := by
    show sortByConf (deduplicate_stock_tips (flattenSources
      ((sortByConf (deduplicate_stock_tips (flattenSources xs))).map
        Sum.inr))) = _
    rw [flattenSources_map_inr]
  rw [h1, dedup_eq_self_of_nodup hnd]
  show t ∈ sortByConf (sortByConf _) ↔ t ∈ sortByConf _
  exact (sortByConf_perm _).mem_iff

/-! ## Invariants of the moneycontrol per-page dedup loop (C8) -/

theorem mcStep_of_some {st : List Tip × List (List Char)} {t0 : Tip}
    {s : List Char} (h : symTruthy t0 = some s) :
    mcStep st t0 = if s ∈ st.2 then st else (st.1 ++ [t0], st.2 ++ [s]) := by
  unfold mcStep
  rw [h]

theorem mcStep_of_none {st : List Tip × List (List Char)} {t0 : Tip}
    (h : symTruthy t0 = none) :
    mcStep st t0 = if t0 ∈ st.1 then st else (st.1 ++ [t0], st.2) := by
  unfold mcStep
  rw [h]

theorem mcStep_fst_sub {st : List Tip × List (List Char)} {t0 u : Tip}
    (h : u ∈ (mcStep st t0).1) : u ∈ st.1 ∨ u = t0 := by
  cases hsym : symTruthy t0 with
  | some s =>
    rw [mcStep_of_some hsym] at h
    by_cases hs : s ∈ st.2
    · rw [if_pos hs] at h
      exact Or.inl h
    · rw [if_neg hs] at h
      rcases List.mem_append.mp h with h' | h'
      · exact Or.inl h'
      · exact Or.inr (List.mem_singleton.mp h')
  | none =>
    rw [mcStep_of_none hsym] at h
    by_cases ht : t0 ∈ st.1
    · rw [if_pos ht] at h
      exact Or.inl h
    · rw [if_neg ht] at h
      rcases List.mem_append.mp h with h' | h'
      · exact Or.inl h'
      · exact Or.inr (List.mem_singleton.mp h')

theorem mcStep_fst_mono {st : List Tip × List (List Char)} {t0 : Tip} :
    st.1 ⊆ (mcStep st t0).1 := by
  intro u hu
  cases hsym : symTruthy t0 with
  | some s =>
    rw [mcStep_of_some hsym]
    by_cases hs : s ∈ st.2
    · rw [if_pos hs]; exact hu
    · rw [if_neg hs]; exact List.mem_append_left _ hu
  | none =>
    rw [mcStep_of_none hsym]
    by_cases ht : t0 ∈ st.1
    · rw [if_pos ht]; exact hu
    · rw [if_neg ht]; exact List.mem_append_left _ hu

theorem mcStep_seen_mono {st : List Tip × List (List Char)} {t0 : Tip} :
    st.2 ⊆ (mcStep st t0).2 := by
  intro s hs
  cases hsym : symTruthy t0 with
  | some s' =>
    rw [mcStep_of_some hsym]
    by_cases hs' : s' ∈ st.2
    · rw [if_pos hs']; exact hs
    · rw [if_neg hs']; exact List.mem_append_left _ hs
  | none =>
    rw [mcStep_of_none hsym]
    by_cases ht : t0 ∈ st.1
    · rw [if_pos ht]; exact hs
    · rw [if_neg ht]; exact hs

theorem mcFold_sub (ts : List Tip) :
    ∀ st : List Tip × List (List Char), ∀ t ∈ (ts.foldl mcStep st).1,
      t ∈ st.1 ∨ t ∈ ts := by
  induction ts with
  | nil => intro st t h; exact Or.inl h
  | cons t0 ts ih =>
    intro st t h
    rcases ih (mcStep st t0) t h with h' | h'
    · rcases mcStep_fst_sub h' with h2 | rfl
      · exact Or.inl h2
      · exact Or.inr (List.mem_cons_self _ _)
    · exact Or.inr (List.mem_cons_of_mem _ h')

theorem mcFold_mono (ts : List Tip) :
    ∀ st : List Tip × List (List Char), st.1 ⊆ (ts.foldl mcStep st).1 := by
  induction ts with
  | nil => intro st u hu; exact hu
  | cons t0 ts ih =>
    intro st u hu
    exact ih (mcStep st t0) (mcStep_fst_mono hu)

theorem mcStep_seen_eq {st : List Tip × List (List Char)} {t0 : Tip}
    (h : st.2 = st.1.filterMap symTruthy) :
    (mcStep st t0).2 = (mcStep st t0).1.filterMap symTruthy := by
  cases hsym : symTruthy t0 with
  | some s =>
    rw [mcStep_of_some hsym]
    by_cases hs : s ∈ st.2
    · rw [if_pos hs]; exact h
    · rw [if_neg hs]
      show st.2 ++ [s] = _
      rw [List.filterMap_append, ← h]
      simp [hsym]
  | none =>
    rw [mcStep_of_none hsym]
    by_cases ht : t0 ∈ st.1
    · rw [if_pos ht]; exact h
    · rw [if_neg ht]
      show st.2 = _
      rw [List.filterMap_append, ← h]
      simp [hsym]

theorem mcFold_seen_eq (ts : List Tip) :
    ∀ st : List Tip × List (List Char), st.2 = st.1.filterMap symTruthy →
      (ts.foldl mcStep st).2 = (ts.foldl mcStep st).1.filterMap symTruthy := by
  induction ts with
  | nil => intro st h; exact h
  | cons t0 ts ih =>
    intro st h
    exact ih (mcStep st t0) (mcStep_seen_eq h)

theorem mcStep_seen_nodup {st : List Tip × List (List Char)} {t0 : Tip}
    (h : st.2.Nodup) : (mcStep st t0).2.Nodup := by
  cases hsym : symTruthy t0 with
  | some s =>
    rw [mcStep_of_some hsym]
    by_cases hs : s ∈ st.2
    · rw [if_pos hs]; exact h
    · rw [if_neg hs]
      show (st.2 ++ [s]).Nodup
      rw [List.nodup_append]
      refine ⟨h, List.nodup_singleton _, ?_⟩
      intro x hx hx1
      rcases List.mem_singleton.mp hx1 with rfl
      exact hs hx
  | none =>
    rw [mcStep_of_none hsym]
    by_cases ht : t0 ∈ st.1
    · rw [if_pos ht]; exact h
    · rw [if_neg ht]; exact h

theorem mcFold_seen_nodup (ts : List Tip) :
    ∀ st : List Tip × List (List Char), st.2.Nodup →
      (ts.foldl mcStep st).2.Nodup := by
  induction ts with
  | nil => intro st h; exact h
  | cons t0 ts ih =>
    intro st h
    exact ih (mcStep st t0) (mcStep_seen_nodup h)

theorem mcFold_first (ts : List Tip) :
    ∀ (st : List Tip × List (List Char)) (t : Tip) (s : List Char),
      t ∈ (ts.foldl mcStep st).1 → symTruthy t = some s →
      t ∈ st.1 ∨ (s ∉ st.2 ∧
        ts.find? (fun u => decide (symTruthy u = some s)) = some t) := by
  induction ts with
  | nil => intro st t s h _; exact Or.inl h
  | cons t0 ts ih =>
    intro st t s h hsym
    rcases ih (mcStep st t0) t s h hsym with h1 | ⟨hs, hfind⟩
    · rcases mcStep_fst_sub h1 with h2 | rfl
      · exact Or.inl h2
      · -- `t = t0`: consult the branch `mcStep` took for `t0`
        rw [mcStep_of_some hsym] at h1
        by_cases hs : s ∈ st.2
        · rw [if_pos hs] at h1
          exact Or.inl h1
        · refine Or.inr ⟨hs, ?_⟩
          rw [List.find?_cons_of_pos _ (by simp [hsym])]
    · have h0 : symTruthy t0 ≠ some s := by
        intro he
        have hbr : mcStep st t0 =
            if s ∈ st.2 then st else (st.1 ++ [t0], st.2 ++ [s]) :=
          mcStep_of_some he
        by_cases hmem : s ∈ st.2
        · rw [hbr, if_pos hmem] at hs
          exact hs hmem
        · rw [hbr, if_neg hmem] at hs
          exact hs (List.mem_append_right _ (List.mem_singleton.mpr rfl))
      refine Or.inr ⟨fun hmem => hs (mcStep_seen_mono hmem), ?_⟩
      rw [List.find?_cons_of_neg _ (by simp [h0]), hfind]

theorem mcStep_seen_cases {st : List Tip × List (List Char)} {t0 : Tip}
    {x : List Char} (h : x ∈ (mcStep st t0).2) :
    x ∈ st.2 ∨ symTruthy t0 = some x := by
  cases hsym : symTruthy t0 with
  | some s =>
    rw [mcStep_of_some hsym] at h
    by_cases hs : s ∈ st.2
    · rw [if_pos hs] at h
      exact Or.inl h
    · rw [if_neg hs] at h
      rcases List.mem_append.mp h with h' | h'
      · exact Or.inl h'
      · rcases List.mem_singleton.mp h' with rfl
        exact Or.inr rfl
  | none =>
    rw [mcStep_of_none hsym] at h
    by_cases ht : t0 ∈ st.1
    · rw [if_pos ht] at h
      exact Or.inl h
    · rw [if_neg ht] at h
      exact Or.inl h

theorem mcFold_retains (ts : List Tip) :
    ∀ (st : List Tip × List (List Char)) (t : Tip) (s : List Char),
      ts.find? (fun u => decide (symTruthy u = some s)) = some t →
      s ∉ st.2 → t ∈ (ts.foldl mcStep st).1 := by
  induction ts with
  | nil =>
    intro st t s hfind _
    simp at hfind
  | cons t0 ts ih =>
    intro st t s hfind hs
    by_cases hp : symTruthy t0 = some s
    · rw [List.find?_cons_of_pos _ (by simp [hp]), Option.some.injEq] at hfind
      subst hfind
      have hin : t0 ∈ (mcStep st t0).1 := by
        rw [mcStep_of_some hp, if_neg hs]
        exact List.mem_append_right _ (List.mem_singleton.mpr rfl)
      exact mcFold_mono ts (mcStep st t0) hin
    · rw [List.find?_cons_of_neg _ (by simp [hp])] at hfind
      have hs' : s ∉ (mcStep st t0).2 := fun hmem => by
        rcases mcStep_seen_cases hmem with h' | h'
        · exact hs h'
        · exact hp h'
      exact ih (mcStep st t0) t s hfind hs'

/-- **C8, amended.** The within-page dedup of `scrape_moneycontrol` keys
on the truthy symbol alone and keeps the *first* entry per symbol: every
output lead is an input lead; an output lead with truthy symbol `s` is the
first input lead whose truthy symbol is `s`; output truthy symbols are
pairwise distinct; every input lead without truthy symbol is kept; and
conversely, for every truthy symbol present in the input, the first input
lead carrying it is retained in the output. -/
theorem c8_amended_mc_dedup_symbol_first :
    (∀ tips t, t ∈ mcDedup tips → t ∈ tips) ∧
    (∀ tips t s, t ∈ mcDedup tips → symTruthy t = some s →
      tips.find? (fun u => decide (symTruthy u = some s)) = some t) ∧
    (∀ tips, ((mcDedup tips).filterMap symTruthy).Nodup) ∧
    (∀ tips t, t ∈ tips → symTruthy t = none → t ∈ mcDedup tips) ∧
    (∀ tips t s, tips.find? (fun u => decide (symTruthy u = some s)) = some t →
      t ∈ mcDedup tips) := by
  refine ⟨?_, ?_, ?_, ?_, ?_⟩
  · intro tips t h
    rcases mcFold_sub tips ([], []) t h with h' | h'
    · simp at h'
    · exact h'
  · intro tips t s h hsym
    rcases mcFold_first tips ([], []) t s h hsym with h' | ⟨-, hfind⟩
    · simp at h'
    · exact hfind
  · intro tips
    have he : (tips.foldl mcStep ([], [])).2 =
        (tips.foldl mcStep ([], [])).1.filterMap symTruthy :=
      mcFold_seen_eq tips ([], []) rfl
    have hnd : (tips.foldl mcStep ([], [])).2.Nodup :=
      mcFold_seen_nodup tips ([], []) List.nodup_nil
    rw [he] at hnd
    exact hnd
  · intro tips t ht hsym
    induction tips with
    | nil => simp at ht
    | cons t0 ts ih =>
      rcases List.mem_cons.mp ht with rfl | ht'
      · -- `t` is the head: it enters the state at the first step
        have hin : t ∈ (mcStep ([], []) t).1 := by
          rw [mcStep_of_none hsym]
          simp
        exact mcFold_mono ts (mcStep ([], []) t) hin
      · -- `t` is in the tail: restart the fold argument from the new state
        have hin : t ∈ (ts.foldl mcStep (mcStep ([], []) t0)).1 := by
          clear ih
          have : ∀ (sts : List Tip) (st : List Tip × List (List Char)),
              t ∈ sts → t ∈ (sts.foldl mcStep st).1 := by
            intro sts
            induction sts with
            | nil => intro st h; simp at h
            | cons u us ihu =>
              intro st h
              rcases List.mem_cons.mp h with rfl | h'
              · have hin2 : t ∈ (mcStep st t).1 := by
                  rw [mcStep_of_none hsym]
                  by_cases hm : t ∈ st.1
                  · rw [if_pos hm]; exact hm
                  · rw [if_neg hm]
                    exact List.mem_append_right _ (List.mem_singleton.mpr rfl)
                exact mcFold_mono us (mcStep st t) hin2
              · exact ihu (mcStep st u) h'
          exact this ts (mcStep ([], []) t0) ht'
        exact hin
  · intro tips t s hfind
    exact mcFold_retains tips ([], []) t s hfind (by simp)

/-- Witness for the amended C8: on the Scenario E page
`[tcs06, tcs09b]` (same symbol `TCS`, different targets and
confidences), the retained lead is the first-encountered `tcs06` — the
retention conjunct applied with the concrete `find?` computation. -/
theorem c8_amended_mc_dedup_witness : tcs06 ∈ mcDedup [tcs06, tcs09b] :=
  c8_amended_mc_dedup_symbol_first.2.2.2.2 [tcs06, tcs09b] tcs06 "TCS".data
    (by rfl)

/-! ## Character-level facts for the `clean_price` round trip -/

theorem digitVal_digitChar {d : ℕ} (h : d < 10) : digitVal (digitChar d) = d := by
  interval_cases d <;> rfl

theorem digitChar_isDigit {d : ℕ} (h : d < 10) : (digitChar d).isDigit = true := by
  interval_cases d <;> decide

theorem digitChar_ne_dot {d : ℕ} (h : d < 10) : digitChar d ≠ '.' := by
  interval_cases d <;> decide

theorem keepPriceChar_digitChar {d : ℕ} (h : d < 10) :
    keepPriceChar (digitChar d) = true := by
  unfold keepPriceChar
  rw [digitChar_isDigit h]
  rfl

theorem isPySpace_of_isDigit {c : Char} (h : c.isDigit = true) :
    isPySpace c = false := by
  have h48 : 48 ≤ c.toNat := by
    unfold Char.isDigit at h
    simp only [Bool.and_eq_true, decide_eq_true_eq] at h
    exact h.1
  unfold isPySpace
  have : ∀ c' : Char, c'.toNat < 48 → (c == c') = false := by
    intro c' hlt
    rw [beq_eq_false_iff_ne]
    intro he
    rw [he] at h48
    omega
  rw [this ' ' (by decide), this '\t' (by decide), this '\n' (by decide),
    this '\r' (by decide), this '\x0b' (by decide), this '\x0c' (by decide)]
  rfl

theorem isPySpace_dot : isPySpace '.' = false := by decide

/-! ## List-structure facts -/

theorem dropWhile_eq_self_of_none {p : Char → Bool} {l : List Char}
    (h : ∀ c ∈ l, p c = false) : l.dropWhile p = l := by
  cases l with
  | nil => rfl
  | cons a l =>
    rw [List.dropWhile_cons, h a (List.mem_cons_self _ _)]
    simp

theorem pyStrip_eq_self {s : List Char} (h : ∀ c ∈ s, isPySpace c = false) :
    pyStrip s = s := by
  unfold pyStrip
  rw [dropWhile_eq_self_of_none h,
    dropWhile_eq_self_of_none (fun c hc => h c (List.mem_reverse.mp hc)),
    List.reverse_reverse]

theorem filter_eq_self_of_keep {s : List Char}
    (h : ∀ c ∈ s, keepPriceChar c = true) : s.filter keepPriceChar = s :=
  List.filter_eq_self.mpr h

theorem count_dot_eq_zero {l : List Char} (h : ∀ c ∈ l, c ≠ '.') :
    l.count '.' = 0 :=
  List.count_eq_zero.mpr fun hc => h '.' hc rfl

theorem takeWhile_append_dot (A B : List Char) (hA : ∀ c ∈ A, c ≠ '.') :
    (A ++ '.' :: B).takeWhile (fun c => c != '.') = A := by
  induction A with
  | nil => simp
  | cons a A ih =>
    rw [List.cons_append, List.takeWhile_cons]
    have : (a != '.') = true := bne_iff_ne.mpr (hA a (List.mem_cons_self _ _))
    rw [this]
    simp only [ite_true, if_true]
    rw [ih fun c hc => hA c (List.mem_cons_of_mem _ hc)]

theorem dropWhile_append_dot (A B : List Char) (hA : ∀ c ∈ A, c ≠ '.') :
    (A ++ '.' :: B).dropWhile (fun c => c != '.') = '.' :: B := by
  induction A with
  | nil => simp
  | cons a A ih =>
    rw [List.cons_append, List.dropWhile_cons]
    have : (a != '.') = true := bne_iff_ne.mpr (hA a (List.mem_cons_self _ _))
    rw [this]
    simp only [ite_true, if_true]
    exact ih fun c hc => hA c (List.mem_cons_of_mem _ hc)

/-! ## Decimal digit rendering and parsing round trip -/

theorem ofDigits_replicate_zero (b k : ℕ) :
    Nat.ofDigits b (List.replicate k 0) = 0 := by
  induction k with
  | zero => rfl
  | succ k ih =>
    rw [List.replicate_succ, Nat.ofDigits_cons, ih]
    simp

theorem natOfChars_map_digitChar (ds : List ℕ) (h : ∀ d ∈ ds, d < 10) :
    natOfChars ((ds.map digitChar).reverse) = Nat.ofDigits 10 ds := by
  unfold natOfChars
  rw [List.map_reverse, List.reverse_reverse, List.map_map]
  congr 1
  have : ∀ d ∈ ds, (digitVal ∘ digitChar) d = id d := by
    intro d hd
    exact digitVal_digitChar (h d hd)
  rw [List.map_congr_left this, List.map_id]

theorem natOfChars_natChars (n : ℕ) : natOfChars (natChars n) = n := by
  unfold natChars
  by_cases h : n = 0
  · rw [if_pos h, h]
    rfl
  · rw [if_neg h]
    rw [natOfChars_map_digitChar _ fun d hd => Nat.digits_lt_base (by norm_num) hd]
    exact Nat.ofDigits_digits 10 n

theorem natChars_ne_nil (n : ℕ) : natChars n ≠ [] := by
  unfold natChars
  by_cases h : n = 0
  · rw [if_pos h]
    exact List.cons_ne_nil _ _
  · rw [if_neg h]
    intro he
    rw [List.reverse_eq_nil_iff, List.map_eq_nil_iff] at he
    exact (Nat.digits_ne_nil_iff_ne_zero.mpr h) he

theorem natChars_digits (n : ℕ) : ∀ c ∈ natChars n, c.isDigit = true := by
  intro c hc
  unfold natChars at hc
  by_cases h : n = 0
  · rw [if_pos h] at hc
    rcases List.mem_singleton.mp hc with rfl
    decide
  · rw [if_neg h] at hc
    rw [List.mem_reverse] at hc
    rcases List.mem_map.mp hc with ⟨d, hd, rfl⟩
    exact digitChar_isDigit (Nat.digits_lt_base (by norm_num) hd)

theorem natChars_ne_dot (n : ℕ) : ∀ c ∈ natChars n, c ≠ '.' := by
  intro c hc he
  have := natChars_digits n c hc
  rw [he] at this
  exact absurd this (by decide)

theorem digits_len_le {m k : ℕ} (h : m < 10 ^ k) :
    (Nat.digits 10 m).length ≤ k := by
  by_cases hm : m = 0
  · subst hm
    simp
  · by_contra hlen
    push_neg at hlen
    have h1 : 10 ^ (k + 1) ≤ 10 ^ (Nat.digits 10 m).length :=
      Nat.pow_le_pow_right (by norm_num) hlen
    have h2 : 10 ^ (Nat.digits 10 m).length ≤ 10 * m :=
      Nat.base_pow_length_digits_le 10 m (by norm_num) hm
    have h3 : 10 * 10 ^ k ≤ 10 * m := by
      calc 10 * 10 ^ k = 10 ^ (k + 1) := by ring
      _ ≤ 10 ^ (Nat.digits 10 m).length := h1
      _ ≤ 10 * m := h2
    omega

theorem fracChars_length {m k : ℕ} (h : m < 10 ^ k) :
    (fracChars m k).length = k := by
  unfold fracChars
  rw [List.length_reverse, List.length_map, List.length_append,
    List.length_replicate]
  have := digits_len_le h
  omega

theorem natOfChars_fracChars (m k : ℕ) :
    natOfChars (fracChars m k) = m := by
  unfold fracChars
  rw [natOfChars_map_digitChar]
  · rw [Nat.ofDigits_append, ofDigits_replicate_zero, Nat.ofDigits_digits]
    simp
  · intro d hd
    rcases List.mem_append.mp hd with h' | h'
    · exact Nat.digits_lt_base (by norm_num) h'
    · rw [List.eq_of_mem_replicate h']
      norm_num

theorem fracChars_digits (m k : ℕ) : ∀ c ∈ fracChars m k, c.isDigit = true := by
  intro c hc
  unfold fracChars at hc
  rw [List.mem_reverse] at hc
  rcases List.mem_map.mp hc with ⟨d, hd, rfl⟩
  rcases List.mem_append.mp hd with h' | h'
  · exact digitChar_isDigit (Nat.digits_lt_base (by norm_num) h')
  · rw [List.eq_of_mem_replicate h']
    decide

theorem fracChars_ne_dot (m k : ℕ) : ∀ c ∈ fracChars m k, c ≠ '.' := by
  intro c hc he
  have := fracChars_digits m k c hc
  rw [he] at this
  exact absurd this (by decide)

/-! ## Decimal rationals: denominator bounds and the `decExp` search -/

theorem find?_succeeds {α : Type} (p : α → Bool) (l : List α)
    (h : ∃ x ∈ l, p x = true) : ∃ y, l.find? p = some y ∧ p y = true := by
  induction l with
  | nil => simp at h
  | cons a l ih =>
    by_cases ha : p a = true
    · exact ⟨a, List.find?_cons_of_pos _ ha, ha⟩
    · rw [List.find?_cons_of_neg _ (by simpa using ha)]
      rcases h with ⟨x, hx, hpx⟩
      rcases List.mem_cons.mp hx with rfl | hx'
      · exact absurd hpx ha
      · exact ih ⟨x, hx', hpx⟩

theorem dvd_ten_pow_bounded : ∀ n m : ℕ, n ∣ 10 ^ m → ∃ k, k ≤ n ∧ n ∣ 10 ^ k := by
  intro n
  induction n using Nat.strong_induction_on with
  | _ n ih =>
    intro m hdvd
    rcases Nat.eq_zero_or_pos n with rfl | hpos
    · have h0 : (10 : ℕ) ^ m = 0 := Nat.eq_zero_of_zero_dvd hdvd
      have h1 : 0 < (10 : ℕ) ^ m := Nat.pos_pow_of_pos m (by norm_num)
      omega
    rcases eq_or_ne n 1 with rfl | hne1
    · exact ⟨0, Nat.zero_le 1, one_dvd _⟩
    by_cases h2 : 2 ∣ n
    · obtain ⟨n', rfl⟩ := h2
      have hn'pos : 0 < n' := by omega
      have hdvd' : n' ∣ 10 ^ m := dvd_trans (Dvd.intro_left 2 rfl) hdvd
      obtain ⟨k, hk, hkd⟩ := ih n' (by omega) m hdvd'
      refine ⟨k + 1, by omega, ?_⟩
      calc 2 * n' ∣ 2 * 10 ^ k := mul_dvd_mul_left 2 hkd
      _ ∣ 10 ^ (k + 1) := ⟨5, by ring⟩
    by_cases h5 : 5 ∣ n
    · obtain ⟨n', rfl⟩ := h5
      have hn'pos : 0 < n' := by omega
      have hdvd' : n' ∣ 10 ^ m := dvd_trans (Dvd.intro_left 5 rfl) hdvd
      obtain ⟨k, hk, hkd⟩ := ih n' (by omega) m hdvd'
      refine ⟨k + 1, by omega, ?_⟩
      calc 5 * n' ∣ 5 * 10 ^ k := mul_dvd_mul_left 5 hkd
      _ ∣ 10 ^ (k + 1) := ⟨2, by ring⟩
    have hc2 : Nat.Coprime n 2 :=
      ((Nat.Prime.coprime_iff_not_dvd Nat.prime_two).mpr h2).symm
    have hc5 : Nat.Coprime n 5 :=
      ((Nat.Prime.coprime_iff_not_dvd Nat.prime_five).mpr h5).symm
    have hc10 : Nat.Coprime n 10 := by
      rw [show (10 : ℕ) = 2 * 5 from rfl]
      exact Nat.Coprime.mul_right hc2 hc5
    have hcpow : Nat.Coprime n (10 ^ m) := Nat.Coprime.pow_right m hc10
    have hone : n ∣ 1 := by
      have := Nat.dvd_gcd dvd_rfl hdvd
      rwa [Nat.Coprime.gcd_eq_one hcpow] at this
    exact absurd (Nat.dvd_one.mp hone) hne1

theorem den_one_iff_dvd (q : ℚ) (k : ℕ) :
    (q * 10 ^ k).den = 1 ↔ q.den ∣ 10 ^ k := by
  constructor
  · intro h
    have hz : (((q * 10 ^ k).num : ℤ) : ℚ) = q * 10 ^ k :=
      (Rat.den_eq_one_iff _).mp h
    have hqd : Rat.divInt ((q * 10 ^ k).num) ((10 : ℤ) ^ k) = q := by
      rw [Rat.divInt_eq_div]
      push_cast
      rw [hz]
      have h10 : ((10 : ℚ)) ^ k ≠ 0 := by positivity
      field_simp
    have h2 := Rat.den_dvd ((q * 10 ^ k).num) ((10 : ℤ) ^ k)
    rw [hqd] at h2
    exact_mod_cast h2
  · intro h
    obtain ⟨c, hc⟩ := h
    have hden0 : ((q.den : ℚ)) ≠ 0 := by
      exact_mod_cast q.den_nz
    have h3 : (q.num : ℚ) = q * (q.den : ℚ) :=
      (div_eq_iff hden0).mp (Rat.num_div_den q)
    have key : q * (10 : ℚ) ^ k = ((q.num * (c : ℤ) : ℤ) : ℚ) := by
      have h1 : ((10 : ℚ)) ^ k = ((q.den : ℚ)) * (c : ℚ) := by
        have := congrArg (fun x : ℕ => (x : ℚ)) hc
        push_cast at this
        simpa using this
      rw [h1]
      push_cast
      rw [h3]
      ring
    rw [key, Rat.den_intCast]

theorem decExp_den_one {q : ℚ} (h : ∃ m, (q * 10 ^ m).den = 1) :
    (q * 10 ^ decExp q).den = 1 := by
  obtain ⟨m, hm⟩ := h
  have hdvd : q.den ∣ 10 ^ m := (den_one_iff_dvd q m).mp hm
  obtain ⟨k, hk, hkd⟩ := dvd_ten_pow_bounded q.den m hdvd
  have hex : ∃ x ∈ List.range (q.den + 1),
      (fun j => (q * 10 ^ j).den == 1) x = true := by
    refine ⟨k, List.mem_range.mpr (by omega), ?_⟩
    simp only [beq_iff_eq]
    exact (den_one_iff_dvd q k).mpr hkd
  obtain ⟨y, hy, hpy⟩ := find?_succeeds _ _ hex
  unfold decExp
  rw [hy, Option.getD_some]
  simpa using hpy

/-! ## `clean_price` on a rendered float string -/

theorem ne_dot_of_isDigit {c : Char} (h : c.isDigit = true) : c ≠ '.' :=
  fun he => by rw [he] at h; exact absurd h (by decide)

theorem guard_false {ip fp : List Char} (hipne : ip ≠ []) (hfpne : fp ≠ [])
    (hipd : ∀ c ∈ ip, c.isDigit = true) (hfpd : ∀ c ∈ fp, c.isDigit = true) :
    ¬(pyUpper (pyStrip (ip ++ '.' :: fp)) = "NA".data ∨
      pyUpper (pyStrip (ip ++ '.' :: fp)) = "N/A".data ∨
      pyUpper (pyStrip (ip ++ '.' :: fp)) = "-".data) := by
  have hns : ∀ c ∈ ip ++ '.' :: fp, isPySpace c = false := by
    intro c hc
    rcases List.mem_append.mp hc with h | h
    · exact isPySpace_of_isDigit (hipd c h)
    · rcases List.mem_cons.mp h with rfl | h'
      · exact isPySpace_dot
      · exact isPySpace_of_isDigit (hfpd c h')
  rw [pyStrip_eq_self hns]
  have hlen : (pyUpper (ip ++ '.' :: fp)).length = ip.length + 1 + fp.length := by
    unfold pyUpper
    rw [List.length_map, List.length_append, List.length_cons]
    omega
  have hip1 : 1 ≤ ip.length := List.length_pos.mpr hipne
  have hfp1 : 1 ≤ fp.length := List.length_pos.mpr hfpne
  rintro (h | h | h)
  · have hl := congrArg List.length h
    rw [hlen, show ("NA".data).length = 2 from rfl] at hl
    omega
  · have hl := congrArg List.length h
    rw [hlen, show ("N/A".data).length = 3 from rfl] at hl
    obtain ⟨a, rfl⟩ := List.length_eq_one.mp (show ip.length = 1 by omega)
    obtain ⟨b, rfl⟩ := List.length_eq_one.mp (show fp.length = 1 by omega)
    have hmid : Char.toUpper '.' = '/' := by
      rw [show pyUpper ([a] ++ '.' :: [b]) =
        [a.toUpper, '.'.toUpper, b.toUpper] from rfl] at h
      simp only [List.cons.injEq] at h
      exact h.2.1
    exact absurd hmid (by decide)
  · have hl := congrArg List.length h
    rw [hlen, show ("-".data).length = 1 from rfl] at hl
    omega

theorem pyFloatOfFiltered_split {ip fp : List Char} (hipne : ip ≠ [])
    (hipd : ∀ c ∈ ip, c.isDigit = true) (hfpd : ∀ c ∈ fp, c.isDigit = true) :
    pyFloatOfFiltered (ip ++ '.' :: fp) =
      some ((natOfChars ip : ℚ) + (natOfChars fp : ℚ) / 10 ^ fp.length) := by
  have hipnd : ∀ c ∈ ip, c ≠ '.' := fun c hc => ne_dot_of_isDigit (hipd c hc)
  have hfpnd : ∀ c ∈ fp, c ≠ '.' := fun c hc => ne_dot_of_isDigit (hfpd c hc)
  have hcount : (ip ++ '.' :: fp).count '.' = 1 := by
    rw [List.count_append, count_dot_eq_zero hipnd, List.count_cons_self,
      count_dot_eq_zero hfpnd]
  have hemp : (ip ++ '.' :: fp).isEmpty = false := by
    cases ip with
    | nil => exact absurd rfl hipne
    | cons a l => rfl
  have hipemp : ip.isEmpty = false := by
    cases ip with
    | nil => exact absurd rfl hipne
    | cons a l => rfl
  simp only [pyFloatOfFiltered, hemp, hcount, Bool.false_eq_true, if_false,
    takeWhile_append_dot _ _ hipnd, dropWhile_append_dot _ _ hipnd,
    List.tail_cons, hipemp, Bool.false_and]
  norm_num

theorem clean_price_some (s : List Char) :
    clean_price (some s) =
      if pyUpper (pyStrip s) = "NA".data ∨ pyUpper (pyStrip s) = "N/A".data ∨
          pyUpper (pyStrip s) = "-".data then none
      else pyFloatOfFiltered (s.filter keepPriceChar) := rfl

theorem clean_price_shape {ip fp : List Char} (hipne : ip ≠ []) (hfpne : fp ≠ [])
    (hipd : ∀ c ∈ ip, c.isDigit = true) (hfpd : ∀ c ∈ fp, c.isDigit = true) :
    clean_price (some (ip ++ '.' :: fp)) =
      some ((natOfChars ip : ℚ) + (natOfChars fp : ℚ) / 10 ^ fp.length) := by
  have hkeep : ∀ c ∈ ip ++ '.' :: fp, keepPriceChar c = true := by
    intro c hc
    rcases List.mem_append.mp hc with h | h
    · unfold keepPriceChar
      rw [hipd c h]
      rfl
    · rcases List.mem_cons.mp h with rfl | h'
      · decide
      · unfold keepPriceChar
        rw [hfpd c h']
        rfl
  rw [clean_price_some, if_neg (guard_false hipne hfpne hipd hfpd),
    filter_eq_self_of_keep hkeep]
  exact pyFloatOfFiltered_split hipne hipd hfpd

theorem find?_range'_eq_some (p : ℕ → Bool) :
    ∀ (n s k0 : ℕ), s ≤ k0 → k0 < s + n → p k0 = true →
      (∀ j, s ≤ j → j < k0 → p j = false) →
      (List.range' s n).find? p = some k0 := by
  intro n
  induction n with
  | zero =>
    intro s k0 h1 h2 _ _
    omega
  | succ n ih =>
    intro s k0 h1 h2 hp hmin
    rw [List.range'_succ]
    rcases eq_or_lt_of_le h1 with rfl | hlt
    · rw [List.find?_cons_of_pos _ hp]
    · rw [List.find?_cons_of_neg _ (by simp [hmin s le_rfl hlt])]
      exact ih (s + 1) k0 hlt (by omega) hp fun j hj1 hj2 => hmin j (by omega) hj2

theorem decExp_eq {q : ℚ} {k0 : ℕ} (h1 : (q * 10 ^ k0).den = 1)
    (hmin : ∀ j < k0, (q * 10 ^ j).den ≠ 1) (hle : k0 ≤ q.den) :
    decExp q = k0 := by
  unfold decExp
  rw [List.range_eq_range',
    find?_range'_eq_some _ (q.den + 1) 0 k0 (Nat.zero_le _) (by omega)
      (by simp [h1]) (fun j _ hj => by simp [hmin j hj]),
    Option.getD_some]

theorem decExp_zero : decExp (0 : ℚ) = 0 :=
  decExp_eq (by rw [zero_mul, Rat.den_zero]) (fun j hj => by omega) (Nat.zero_le _)

/-- For a nonnegative decimal value that is zero or lies in
`[10^-4, 10^16)`, the decimal exponent of the leading digit lies in the
`[-4, 15]` band where Python `str` renders positionally. -/
theorem exp_in_fixed_range {q : ℚ} (hk1 : (q * 10 ^ decExp q).den = 1)
    (hrange : q = 0 ∨ ((1 : ℚ) / 10000 ≤ q ∧ q < 10 ^ 16)) :
    -4 ≤ ((Nat.digits 10 ((q * 10 ^ decExp q).num.toNat)).length : ℤ) - 1 -
        (decExp q : ℤ) ∧
    ((Nat.digits 10 ((q * 10 ^ decExp q).num.toNat)).length : ℤ) - 1 -
        (decExp q : ℤ) ≤ 15 := by
  rcases hrange with rfl | ⟨hlo, hhi⟩
  · rw [decExp_zero]
    norm_num
  · have hqpos : 0 < q := lt_of_lt_of_le (by norm_num) hlo
    have hvpos : 0 < q * 10 ^ decExp q := by positivity
    have hnum_pos : 0 < (q * 10 ^ decExp q).num := Rat.num_pos.mpr hvpos
    have hnpos : 0 < (q * 10 ^ decExp q).num.toNat := by omega
    have hN : (((q * 10 ^ decExp q).num.toNat : ℕ) : ℚ) = q * 10 ^ decExp q := by
      have h1 : (((q * 10 ^ decExp q).num.toNat : ℤ)) = (q * 10 ^ decExp q).num :=
        Int.toNat_of_nonneg (le_of_lt hnum_pos)
      calc (((q * 10 ^ decExp q).num.toNat : ℕ) : ℚ)
          = (((q * 10 ^ decExp q).num.toNat : ℤ) : ℚ) := by push_cast; ring
        _ = (((q * 10 ^ decExp q).num : ℤ) : ℚ) := by rw [h1]
        _ = q * 10 ^ decExp q := (Rat.den_eq_one_iff _).mp hk1
    have hub : (q * 10 ^ decExp q).num.toNat <
        10 ^ (Nat.digits 10 ((q * 10 ^ decExp q).num.toNat)).length :=
      Nat.lt_base_pow_length_digits (by norm_num)
    have hlb : 10 ^ (Nat.digits 10 ((q * 10 ^ decExp q).num.toNat)).length ≤
        10 * (q * 10 ^ decExp q).num.toNat :=
      Nat.base_pow_length_digits_le 10 _ (by norm_num) (by omega)
    constructor
    · suffices h : decExp q ≤ (Nat.digits 10 ((q * 10 ^ decExp q).num.toNat)).length + 3 by
        omega
      have h1 : (10 : ℚ) ^ decExp q ≤
          (((q * 10 ^ decExp q).num.toNat : ℕ) : ℚ) * 10 ^ 4 := by
        rw [hN]
        calc (10 : ℚ) ^ decExp q = 1 / 10000 * 10 ^ 4 * 10 ^ decExp q := by norm_num
          _ ≤ q * 10 ^ 4 * 10 ^ decExp q := by
              apply mul_le_mul_of_nonneg_right
                (mul_le_mul_of_nonneg_right hlo (by norm_num)) (by positivity)
          _ = q * 10 ^ decExp q * 10 ^ 4 := by ring
      have h2 : (10 : ℕ) ^ decExp q ≤ (q * 10 ^ decExp q).num.toNat * 10 ^ 4 := by
        exact_mod_cast h1
      have h4 : (10 : ℕ) ^ decExp q <
          10 ^ ((Nat.digits 10 ((q * 10 ^ decExp q).num.toNat)).length + 4) := by
        calc (10 : ℕ) ^ decExp q ≤ (q * 10 ^ decExp q).num.toNat * 10 ^ 4 := h2
          _ < 10 ^ (Nat.digits 10 ((q * 10 ^ decExp q).num.toNat)).length * 10 ^ 4 :=
              (Nat.mul_lt_mul_right (by norm_num)).mpr hub
          _ = _ := by rw [pow_add]
      have := (Nat.pow_lt_pow_iff_right (by norm_num : 1 < 10)).mp h4
      omega
    · suffices h : (Nat.digits 10 ((q * 10 ^ decExp q).num.toNat)).length ≤
          16 + decExp q by
        omega
      have h1 : (((q * 10 ^ decExp q).num.toNat : ℕ) : ℚ) < 10 ^ (16 + decExp q) := by
        rw [hN, pow_add]
        exact mul_lt_mul_of_pos_right hhi (by positivity)
      have h2 : (q * 10 ^ decExp q).num.toNat < 10 ^ (16 + decExp q) := by
        exact_mod_cast h1
      have h4 : (10 : ℕ) ^ (Nat.digits 10 ((q * 10 ^ decExp q).num.toNat)).length <
          10 ^ (17 + decExp q) := by
        calc (10 : ℕ) ^ (Nat.digits 10 ((q * 10 ^ decExp q).num.toNat)).length
            ≤ 10 * (q * 10 ^ decExp q).num.toNat := hlb
          _ < 10 * 10 ^ (16 + decExp q) := by omega
          _ = 10 ^ (17 + decExp q) := by rw [show 17 + decExp q = (16 + decExp q) + 1 from by omega, pow_succ']
      have := (Nat.pow_lt_pow_iff_right (by norm_num : 1 < 10)).mp h4
      omega

theorem clean_price_pyFloatStr {q : ℚ} (hq : 0 ≤ q)
    (hden : ∃ m, (q * 10 ^ m).den = 1)
    (hrange : q = 0 ∨ ((1 : ℚ) / 10000 ≤ q ∧ q < 10 ^ 16)) :
    clean_price (some (pyFloatStr q)) = some q := by
  have hk1 : (q * 10 ^ decExp q).den = 1 := decExp_den_one hden
  have hnum : 0 ≤ (q * 10 ^ decExp q).num := Rat.num_nonneg.mpr (by positivity)
  have hN : (((q * 10 ^ decExp q).num.toNat : ℕ) : ℚ) = q * 10 ^ decExp q := by
    have h1 : (((q * 10 ^ decExp q).num.toNat : ℤ)) = (q * 10 ^ decExp q).num :=
      Int.toNat_of_nonneg hnum
    calc (((q * 10 ^ decExp q).num.toNat : ℕ) : ℚ)
        = (((q * 10 ^ decExp q).num.toNat : ℤ) : ℚ) := by push_cast; ring
      _ = (((q * 10 ^ decExp q).num : ℤ) : ℚ) := by rw [h1]
      _ = q * 10 ^ decExp q := (Rat.den_eq_one_iff _).mp hk1
  obtain ⟨hlow, hhigh⟩ := exp_in_fixed_range hk1 hrange
  by_cases hk0 : decExp q = 0
  · have hq' : (((q * 10 ^ decExp q).num.toNat : ℕ) : ℚ) = q := by
      rw [hN, hk0]
      norm_num
    have hstr : pyFloatStr q =
        natChars ((q * 10 ^ decExp q).num.toNat) ++ '.' :: ['0'] := by
      simp only [pyFloatStr]
      rw [if_pos (And.intro hlow hhigh), if_pos hk0]
    rw [hstr, clean_price_shape (natChars_ne_nil _) (by decide)
      (natChars_digits _) (by intro c hc; rcases List.mem_singleton.mp hc with rfl; decide)]
    rw [natOfChars_natChars]
    rw [show natOfChars ['0'] = 0 from rfl, show (['0'] : List Char).length = 1 from rfl]
    rw [hq']
    norm_num
  · have hpow : 0 < 10 ^ decExp q := Nat.pos_pow_of_pos _ (by norm_num)
    have hmod : (q * 10 ^ decExp q).num.toNat % 10 ^ decExp q < 10 ^ decExp q :=
      Nat.mod_lt _ hpow
    have hfpne : fracChars ((q * 10 ^ decExp q).num.toNat % 10 ^ decExp q)
        (decExp q) ≠ [] := by
      intro he
      have := congrArg List.length he
      rw [fracChars_length hmod] at this
      simp at this
      exact hk0 this
    have hstr : pyFloatStr q =
        natChars ((q * 10 ^ decExp q).num.toNat / 10 ^ decExp q) ++
          '.' :: fracChars ((q * 10 ^ decExp q).num.toNat % 10 ^ decExp q)
            (decExp q) := by
      simp only [pyFloatStr]
      rw [if_pos (And.intro hlow hhigh), if_neg hk0]
    rw [hstr, clean_price_shape (natChars_ne_nil _) hfpne
      (natChars_digits _) (fracChars_digits _ _)]
    rw [natOfChars_natChars, natOfChars_fracChars, fracChars_length hmod]
    have hdm : ((q * 10 ^ decExp q).num.toNat / 10 ^ decExp q) * 10 ^ decExp q +
        (q * 10 ^ decExp q).num.toNat % 10 ^ decExp q =
        (q * 10 ^ decExp q).num.toNat := by
      have h := Nat.div_add_mod ((q * 10 ^ decExp q).num.toNat) (10 ^ decExp q)
      rw [mul_comm] at h
      exact h
    have h10 : ((10 : ℚ)) ^ decExp q ≠ 0 := by positivity
    congr 1
    field_simp
    rw [← hN]
    exact_mod_cast hdm

theorem add_div_pow_den_one (A B e : ℕ) :
    ((((A : ℚ)) + (B : ℚ) / 10 ^ e) * 10 ^ e).den = 1 := by
  have h10 : ((10 : ℚ)) ^ e ≠ 0 := by positivity
  have hval : (((A : ℚ)) + (B : ℚ) / 10 ^ e) * 10 ^ e =
      ((A * 10 ^ e + B : ℕ) : ℚ) := by
    push_cast
    field_simp
  rw [hval, Rat.den_natCast]

theorem pyFloatOfFiltered_shape {t : List Char} {q : ℚ}
    (h : pyFloatOfFiltered t = some q) : 0 ≤ q ∧ ∃ m, (q * 10 ^ m).den = 1 := by
  simp only [pyFloatOfFiltered] at h
  by_cases h1 : t.isEmpty = true
  · rw [if_pos h1] at h
    exact absurd h (by simp)
  rw [if_neg h1] at h
  by_cases h2 : t.count '.' = 0
  · rw [if_pos h2, Option.some.injEq] at h
    refine ⟨by rw [← h]; positivity, 0, ?_⟩
    rw [← h, pow_zero, mul_one, Rat.den_natCast]
  rw [if_neg h2] at h
  by_cases h3 : t.count '.' = 1
  · rw [if_pos h3] at h
    by_cases h4 : ((t.takeWhile fun c => c != '.').isEmpty &&
        ((t.dropWhile fun c => c != '.').tail).isEmpty) = true
    · rw [if_pos h4] at h
      exact absurd h (by simp)
    · rw [if_neg h4, Option.some.injEq] at h
      refine ⟨by rw [← h]; positivity,
        ((t.dropWhile fun c => c != '.').tail).length, ?_⟩
      rw [← h]
      exact add_div_pow_den_one _ _ _
  · rw [if_neg h3] at h
    exact absurd h (by simp)

theorem digits_ten_one : Nat.digits 10 1 = [1] := by
  rw [Nat.digits_def' (by norm_num : (1:ℕ) < 10) (by norm_num : (0:ℕ) < 1)]
  norm_num

theorem digits_ten_five : Nat.digits 10 5 = [5] := by
  rw [Nat.digits_def' (by norm_num : (1:ℕ) < 10) (by norm_num : (0:ℕ) < 5)]
  norm_num

theorem natChars_five : natChars 5 = ['5'] := by
  unfold natChars
  rw [if_neg (by norm_num : ¬(5:ℕ) = 0), digits_ten_five]
  rfl

theorem expDigits_five : expDigits 5 = ['0', '5'] := by
  unfold expDigits
  rw [if_pos (by norm_num : (5:ℕ) < 10), natChars_five]

/-- **C6 counterexample.** `clean_price("0.00001")` parses to the value
`1e-05`; Python `str` renders that value in scientific notation as
`"1e-05"` (exponent `-5` is below the positional band `[-4, 15]`);
re-parsing `"1e-05"` strips the `e` and the `-` and reads `105.0`, a
different value — so `clean_price` is *not* idempotent under
stringification, refuting the unconditional idempotence of the claim. -/
theorem c6_sci_notation_breaks_idempotence :
    clean_price (some "0.00001".data) = some (1 / 100000) ∧
    pyFloatStr (1 / 100000) = "1e-05".data ∧
    clean_price (some "1e-05".data) = some 105 ∧
    (105 : ℚ) ≠ 1 / 100000 := by
  have hq5 : (1 / 100000 : ℚ) * 10 ^ (5:ℕ) = 1 := by norm_num
  have hden5 : ((1 / 100000 : ℚ) * 10 ^ (5:ℕ)).den = 1 := by
    rw [hq5, Rat.den_one]
  have hmin : ∀ j < 5, ((1 / 100000 : ℚ) * 10 ^ j).den ≠ 1 := by
    intro j hj h
    have hvpos : (0:ℚ) < (1 / 100000 : ℚ) * 10 ^ j := by positivity
    have hvlt : (1 / 100000 : ℚ) * 10 ^ j < 1 := by
      have h10 : (10:ℚ) ^ j ≤ 10 ^ (4:ℕ) :=
        pow_le_pow_right₀ (by norm_num) (by omega)
      calc (1 / 100000 : ℚ) * 10 ^ j ≤ 1 / 100000 * 10 ^ (4:ℕ) :=
            mul_le_mul_of_nonneg_left h10 (by norm_num)
        _ < 1 := by norm_num
    have hz := (Rat.den_eq_one_iff _).mp h
    have hnpos : 0 < ((1 / 100000 : ℚ) * 10 ^ j).num := Rat.num_pos.mpr hvpos
    have h1le : (1 : ℚ) ≤ ((((1 / 100000 : ℚ) * 10 ^ j).num : ℤ) : ℚ) := by
      exact_mod_cast hnpos
    rw [hz] at h1le
    linarith
  have hdvd : (1 / 100000 : ℚ).den ∣ 10 ^ (5:ℕ) := (den_one_iff_dvd _ 5).mp hden5
  have hnd4 : ¬ (1 / 100000 : ℚ).den ∣ 10 ^ (4:ℕ) := fun hd =>
    hmin 4 (by omega) ((den_one_iff_dvd _ 4).mpr hd)
  have hle5 : 5 ≤ (1 / 100000 : ℚ).den := by
    by_contra hcon
    push_neg at hcon
    have hdpos : 0 < (1 / 100000 : ℚ).den :=
      Nat.pos_of_ne_zero (1 / 100000 : ℚ).den_nz
    generalize hgen : (1 / 100000 : ℚ).den = d at hdvd hnd4 hdpos hcon
    interval_cases d
    · exact hnd4 (one_dvd _)
    · exact hnd4 (by norm_num)
    · exact absurd hdvd (by norm_num)
    · exact hnd4 (by norm_num)
  have hdec : decExp (1 / 100000 : ℚ) = 5 := decExp_eq hden5 hmin hle5
  have hnum1 : ((1 / 100000 : ℚ) * 10 ^ decExp (1 / 100000 : ℚ)).num.toNat = 1 := by
    rw [hdec, hq5, Rat.num_one]
    rfl
  have hlenE : ((Nat.digits 10
        ((1 / 100000 : ℚ) * 10 ^ decExp (1 / 100000 : ℚ)).num.toNat).length : ℤ) -
        1 - (decExp (1 / 100000 : ℚ) : ℤ) = -5 := by
    rw [hnum1, digits_ten_one, hdec]
    norm_num
  have hstr : pyFloatStr (1 / 100000 : ℚ) = "1e-05".data := by
    simp only [pyFloatStr]
    rw [hlenE, if_neg (by norm_num : ¬(-4 ≤ (-5:ℤ) ∧ (-5:ℤ) ≤ 15)), hnum1]
    unfold sciStr
    rw [digits_ten_one, if_pos (by norm_num : (-5:ℤ) < 0),
      show ((-5:ℤ)).natAbs = 5 from rfl, expDigits_five]
    decide
  have hsplit : ("0.00001".data : List Char) = "0".data ++ '.' :: "00001".data :=
    rfl
  have ha : clean_price (some "0.00001".data) = some (1 / 100000) := by
    rw [hsplit, clean_price_shape (by decide) (by decide) (by decide) (by decide),
      show natOfChars "0".data = 0 from rfl,
      show natOfChars "00001".data = 1 from rfl,
      show ("00001".data : List Char).length = 5 from rfl]
    norm_num
  exact ⟨ha, hstr, by decide, by norm_num⟩

/-- **C6, amended.** `clean_price` returns `None` for `None`, the empty
string, `NA`, `N/A`, `-` and any unparsable input (several dots after
filtering, or no digit at all); it is total (modelled by returning an
`Option`, hence never raises); and it is idempotent on the positional
band: re-parsing the stringified result of a successful parse returns
the same value whenever that value is zero or lies in `[10^-4, 10^16)`,
where Python `str` renders positionally (outside the band, scientific
notation breaks the round trip, as the counterexample shows). -/
theorem c6_amended_clean_price_none_cases_and_bounded_idempotence :
    clean_price none = none ∧
    clean_price (some "".data) = none ∧
    clean_price (some "NA".data) = none ∧
    clean_price (some "N/A".data) = none ∧
    clean_price (some "-".data) = none ∧
    (∀ s : List Char, 2 ≤ (s.filter keepPriceChar).count '.' →
      clean_price (some s) = none) ∧
    (∀ s : List Char, (∀ c ∈ s.filter keepPriceChar, c = '.') →
      clean_price (some s) = none) ∧
    (∀ x : Option (List Char), clean_price x = none ∨
      ∃ q, clean_price x = some q) ∧
    (∀ (s : List Char) (q : ℚ), clean_price (some s) = some q →
      (q = 0 ∨ ((1 : ℚ) / 10000 ≤ q ∧ q < 10 ^ 16)) →
      clean_price (some (pyFloatStr q)) = some q) := by
  refine ⟨rfl, rfl, by decide, by decide, by decide, ?_, ?_, ?_, ?_⟩
  · intro s h
    rw [clean_price_some]
    split_ifs with hg
    · rfl
    · simp only [pyFloatOfFiltered]
      split_ifs with h1 h2 h3 h4 <;> first | rfl | (exfalso; omega)
  · intro s hall
    rw [clean_price_some]
    split_ifs with hg
    · rfl
    · have hrep : s.filter keepPriceChar =
          List.replicate (s.filter keepPriceChar).length '.' :=
        List.eq_replicate_iff.mpr ⟨rfl, hall⟩
      rw [hrep]
      generalize (s.filter keepPriceChar).length = n
      rcases n with _ | _ | n
      · rfl
      · rfl
      · have hc : (List.replicate (n + 2) '.').count '.' = n + 2 :=
          List.count_replicate_self _ _
        have hemp : (List.replicate (n + 2) '.').isEmpty = false := by
          rw [List.replicate_succ]
          rfl
        simp only [pyFloatOfFiltered, hemp, hc, Bool.false_eq_true, if_false]
        rw [if_neg (by omega), if_neg (by omega)]
  · intro x
    cases h : clean_price x with
    | none => exact Or.inl rfl
    | some q => exact Or.inr ⟨q, rfl⟩
  · intro s q h hrange
    rw [clean_price_some] at h
    split_ifs at h with hg
    obtain ⟨hq, hden⟩ := pyFloatOfFiltered_shape h
    exact clean_price_pyFloatStr hq hden hrange

/-- Witness for the amended C6: parsing `"250"`, stringifying (`"250.0"`)
and re-parsing returns the same value (`250` lies in the positional
band). -/
theorem c6_amended_clean_price_witness :
    clean_price (some (pyFloatStr 250)) = some 250 :=
  c6_amended_clean_price_none_cases_and_bounded_idempotence.2.2.2.2.2.2.2.2
    "250".data 250 (by decide) (Or.inr ⟨by norm_num, by norm_num⟩)

/-- **C10.** `clean_price` never returns a negative number: the minus
sign is stripped with every other non-digit character, so `"-250"` parses
to the positive `250.0` and `"0"` parses to `0.0` (the result need not be
strictly positive). -/
theorem c10_clean_price_nonneg :
    (∀ (x : Option (List Char)) (q : ℚ), clean_price x = some q → 0 ≤ q) ∧
    clean_price (some "-250".data) = some 250 ∧
    clean_price (some "0".data) = some 0 := by
  refine ⟨?_, by decide, by decide⟩
  intro x q h
  cases x with
  | none => exact absurd h (by simp [clean_price])
  | some s =>
    rw [clean_price_some] at h
    split_ifs at h with hg
    exact (pyFloatOfFiltered_shape h).1

/-- Witness for C10 at the concrete input `"-250"`. -/
theorem c10_clean_price_nonneg_witness : (0 : ℚ) ≤ 250 :=
  c10_clean_price_nonneg.1 (some "-250".data) 250 c10_clean_price_nonneg.2.1

end ScraperBit
